import Mathlib

/-!
# Verification of the UK power-map data pipeline (phase 3)

A shallow embedding, in Lean 4, of the two core components of the repository:

* `scripts/extract_data.py` — the literal extractor: locating `var NAME = `
  assignments in a source blob, isolating the bracketed literal by
  depth scanning that skips string literals, repairing the literal text to
  strict JSON by two regex substitutions, and parsing it.
* `scripts/process_demographics.py` — the demographics reconciler: fuzzy
  name matching (a model of `difflib.SequenceMatcher`), the derived
  non-white percentage, smart-quote name normalization, minister linkage
  and final output assembly.

Python strings are embedded as `List Char`; machine floats are modelled by
exact rationals `ℚ`; `round(x, 1)` is modelled as round-half-to-even at one
decimal on `ℚ`; Python exceptions are modelled by `Except String`.
Regex character classes `\s` and `\w` are modelled by their ASCII subsets
(all data handled by the scripts is ASCII apart from smart quotes, which
never meet these regexes).
-/

abbrev LC := List Char

def toL (s : String) : LC := s.data

/-- ASCII codes for characters that are awkward to write literally. -/
def apos : Char := Char.ofNat 39

def bslash : Char := Char.ofNat 92

def dquote : Char := Char.ofNat 34

def lbrk : Char := Char.ofNat 91

def rbrk : Char := Char.ofNat 93

def lbrc : Char := Char.ofNat 123

def rbrc : Char := Char.ofNat 125

def nlChar : Char := Char.ofNat 10

/-- The ASCII part of the regex class `\s` (Python `re` whitespace). -/
def wsChar (c : Char) : Bool :=
  c = Char.ofNat 32 || c = Char.ofNat 9 || c = nlChar ||
  c = Char.ofNat 11 || c = Char.ofNat 12 || c = Char.ofNat 13

/-- The ASCII part of the regex class `\w`. -/
def wordChar (c : Char) : Bool :=
  ('a' ≤ c && c ≤ 'z') || ('A' ≤ c && c ≤ 'Z') || ('0' ≤ c && c ≤ '9') || c = '_'

/-- Consume an exact prefix, returning the remainder. -/
def dropExact : LC → LC → Option LC
  | [], s => some s
  | _ :: _, [] => none
  | p :: ps, c :: cs => if c = p then dropExact ps cs else none

/-- Does the regex `var\s+NAME\s*=\s*` match at the head of `s`?  On success
returns the suffix after the match end (greedy whitespace runs, which for an
identifier `NAME` and the literal `=` is exactly the regex semantics). -/
def matchAssignAt (name : LC) (s : LC) : Option LC :=
  match dropExact (toL "var") s with
  | none => none
  | some s1 =>
    if s1.takeWhile wsChar = [] then none
    else
      match dropExact name (s1.dropWhile wsChar) with
      | none => none
      | some s3 =>
        match s3.dropWhile wsChar with
        | c :: s5 => if c = '=' then some (s5.dropWhile wsChar) else none
        | [] => none

/-- `re.search(rf"var\s+{name}\s*=\s*", source)`: the leftmost match; on
success returns the suffix of `source` starting at the match end. -/
def findAssign (name : LC) : LC → Option LC
  | [] => none
  | c :: t =>
    match matchAssignAt name (c :: t) with
    | some r => some r
    | none => findAssign name t

mutual

/-- The bracket-depth scan of `js_var_to_json` (lines 52-68 of
`extract_data.py`), started at the opening bracket with `depth = 0`.
Returns `source[start : i+1]`: the consumed span, inclusive of the closing
bracket when depth returns to zero, or the whole remaining text when the
loop runs off the end. -/
def scanLiteral (op cl : Char) (d : Int) : LC → LC
  | [] => []
  | c :: rest =>
    if c = op then c :: scanLiteral op cl (d + 1) rest
    else if c = cl then
      if d = 1 then [c] else c :: scanLiteral op cl (d - 1) rest
    else if c = dquote || c = apos then c :: scanStr op cl d c rest
    else c :: scanLiteral op cl d rest

/-- The inner string-skipping loop (lines 60-67): consume characters up to
and including the closing quote `q`, a backslash escaping the next character
unconditionally, then resume the depth scan. -/
def scanStr (op cl : Char) (d : Int) (q : Char) : LC → LC
  | [] => []
  | c :: rest =>
    if c = q then c :: scanLiteral op cl d rest
    else if c = bslash then
      match rest with
      | [] => [c]
      | e :: rest2 => c :: e :: scanStr op cl d q rest2
    else c :: scanStr op cl d q rest

end

/-- `js_var_to_json(varname, source)`: locate the assignment, check the
opener, scan the literal.  `raise ValueError` is modelled by
`Except.error`. -/
def js_var_to_json (varname : LC) (source : LC) : Except String LC :=
  match findAssign varname source with
  | none => .error ("Could not find var " ++ String.mk varname)
  | some rest =>
    match rest with
    | [] => .error "string index out of range"
    | c :: _ =>
      if c = lbrk then .ok (scanLiteral lbrk rbrk 0 rest)
      else if c = lbrc then .ok (scanLiteral lbrc rbrc 0 rest)
      else .error ("Expected bracket after var " ++ String.mk varname)

/-- The lookbehind class `[{,\n]` of the bareword-key substitution. -/
def keyTrigger (c : Char) : Bool := c = lbrc || c = ',' || c = nlChar

/-- Attempt the regex `\s*(\w+)\s*:` at the head of `t` (greedy, which is
exact here since `\w` and `\s` are disjoint and `:` is in neither).
On success returns the captured word and the suffix after the colon. -/
def tryKey (t : LC) : Option (LC × LC) :=
  let t1 := t.dropWhile wsChar
  let w := t1.takeWhile wordChar
  if w = [] then none
  else
    match (t1.dropWhile wordChar).dropWhile wsChar with
    | c :: r => if c = ':' then some (w, r) else none
    | [] => none

/-- `re.sub(r"(?<=[{,\n])\s*(\w+)\s*:", r"\"\1\":", s)`, scanning left to
right; `allow` records whether the previous character of the original text
is in the lookbehind class.  Fuel-indexed for structural recursion; every
step consumes at least one character, so `length + 1` fuel is exact. -/
def sub1Aux : Nat → Bool → LC → LC
  | 0, _, l => l
  | _, _, [] => []
  | Nat.succ fuel, allow, c :: rest =>
    if allow then
      match tryKey (c :: rest) with
      | some (w, r) => dquote :: (w ++ dquote :: ':' :: sub1Aux fuel false r)
      | none => c :: sub1Aux fuel (keyTrigger c) rest
    else c :: sub1Aux fuel (keyTrigger c) rest

/-- The bareword-key substitution: at the start of the text there is no
preceding character, so no lookbehind can hold. -/
def sub1 (l : LC) : LC := sub1Aux (l.length + 1) false l

/-- `re.sub(r",\s*([}\]])", r"\1", s)`, scanning left to right: a comma
whose next non-whitespace character is `}` or `]` is deleted together with
the intervening whitespace.  Fuel-indexed for structural recursion. -/
def sub2Fuel : Nat → LC → LC
  | 0, l => l
  | _, [] => []
  | Nat.succ fuel, c :: rest =>
    if c = ',' then
      match rest.dropWhile wsChar with
      | b :: r2 =>
        if b = rbrc || b = rbrk then b :: sub2Fuel fuel r2
        else c :: sub2Fuel fuel rest
      | [] => c :: sub2Fuel fuel rest
    else c :: sub2Fuel fuel rest

def sub2 (l : LC) : LC := sub2Fuel (l.length + 1) l

/-- `js_to_json(raw)`: quote bareword keys, then remove trailing commas
(lines 81 and 84 of `extract_data.py`). -/
def js_to_json (raw : LC) : LC := sub2 (sub1 raw)

/-- JSON whitespace (`json.loads`). -/
def jwsChar (c : Char) : Bool :=
  c = Char.ofNat 32 || c = Char.ofNat 9 || c = nlChar || c = Char.ofNat 13

def digitChar (c : Char) : Bool := '0' ≤ c && c ≤ '9'

def hexChar (c : Char) : Bool :=
  digitChar c || ('a' ≤ c && c ≤ 'f') || ('A' ≤ c && c ≤ 'F')

/-- Modelled from the spec: the body of a strict JSON string after the
opening quote (the stdlib `json.loads` string grammar, which is code
external to this repository); returns the remainder after the closing
quote. -/
def parseStrBody : LC → Option LC
  | [] => none
  | c :: rest =>
    if c = dquote then some rest
    else if c = bslash then
      match rest with
      | [] => none
      | e :: rest2 =>
        if e = dquote || e = bslash || e = '/' || e = 'b' || e = 'f' ||
            e = 'n' || e = 'r' || e = 't' then parseStrBody rest2
        else if e = 'u' then
          match rest2 with
          | h1 :: h2 :: h3 :: h4 :: rest3 =>
            if hexChar h1 && hexChar h2 && hexChar h3 && hexChar h4 then
              parseStrBody rest3
            else none
          | _ => none
        else none
    else if c.toNat < 32 then none
    else parseStrBody rest

/-- Strict JSON integer part: `0 | [1-9][0-9]*`. -/
def parseIntPart : LC → Option LC
  | [] => none
  | c :: rest =>
    if c = '0' then some rest
    else if digitChar c then some (rest.dropWhile digitChar)
    else none

/-- Strict JSON optional fraction part. -/
def parseFracPart (s : LC) : Option LC :=
  match s with
  | c :: rest =>
    if c = Char.ofNat 46 then
      if rest.takeWhile digitChar = [] then none
      else some (rest.dropWhile digitChar)
    else some (c :: rest)
  | [] => some []

/-- Strict JSON optional exponent part. -/
def parseExpPart (s : LC) : Option LC :=
  match s with
  | c :: rest =>
    if c = 'e' || c = 'E' then
      let rest2 := match rest with
        | c2 :: r2 => if c2 = '+' || c2 = '-' then r2 else rest
        | [] => rest
      if rest2.takeWhile digitChar = [] then none
      else some (rest2.dropWhile digitChar)
    else some (c :: rest)
  | [] => some []

/-- Strict JSON number, starting at its first character. -/
def parseNum (s : LC) : Option LC :=
  let s1 := match s with
    | c :: r => if c = '-' then r else s
    | [] => s
  match parseIntPart s1 with
  | none => none
  | some s2 =>
    match parseFracPart s2 with
    | none => none
    | some s3 => parseExpPart s3

mutual

/-- Modelled from the spec: one strict JSON value (the stdlib `json.loads`
grammar, code external to this repository), fuel-indexed; returns the
remainder after the value. -/
def parseVal : Nat → LC → Option LC
  | 0, _ => none
  | Nat.succ fuel, s =>
    match s with
    | [] => none
    | c :: rest =>
      if c = 'n' then dropExact (toL "ull") rest
      else if c = 't' then dropExact (toL "rue") rest
      else if c = 'f' then dropExact (toL "alse") rest
      else if c = dquote then parseStrBody rest
      else if c = lbrk then
        match rest.dropWhile jwsChar with
        | b :: r2 => if b = rbrk then some r2 else parseElems fuel (b :: r2)
        | [] => none
      else if c = lbrc then
        match rest.dropWhile jwsChar with
        | b :: r2 => if b = rbrc then some r2 else parseMembers fuel (b :: r2)
        | [] => none
      else if c = '-' || digitChar c then parseNum (c :: rest)
      else none

/-- Array elements: `value ws ("," ws value ws)* "]"`. -/
def parseElems : Nat → LC → Option LC
  | 0, _ => none
  | Nat.succ fuel, s =>
    match parseVal fuel s with
    | none => none
    | some r1 =>
      match r1.dropWhile jwsChar with
      | c :: r2 =>
        if c = ',' then parseElems fuel (r2.dropWhile jwsChar)
        else if c = rbrk then some r2
        else none
      | [] => none

/-- Object members: `string ws ":" ws value ws ("," ws string ...)* "}"`. -/
def parseMembers : Nat → LC → Option LC
  | 0, _ => none
  | Nat.succ fuel, s =>
    match s with
    | c :: rest =>
      if c = dquote then
        match parseStrBody rest with
        | none => none
        | some r1 =>
          match r1.dropWhile jwsChar with
          | c2 :: r2 =>
            if c2 = ':' then
              match parseVal fuel (r2.dropWhile jwsChar) with
              | none => none
              | some r3 =>
                match r3.dropWhile jwsChar with
                | c3 :: r4 =>
                  if c3 = ',' then parseMembers fuel (r4.dropWhile jwsChar)
                  else if c3 = rbrc then some r4
                  else none
                | [] => none
            else none
          | [] => none
      else none
    | [] => none

end

/-- Modelled from the spec: `json.loads(text)` succeeds, i.e. `text` is
strict JSON.  The fuel bound is generous: every fuel decrement follows the
consumption of at least one character per two decrements. -/
def jsonValid (s : LC) : Bool :=
  match parseVal (2 * s.length + 8) (s.dropWhile jwsChar) with
  | some r => r.dropWhile jwsChar = []
  | none => false

/-- `extract_and_save(varname, filename, source)` (lines 95-121): the only
caught exception is `json.JSONDecodeError` around `json.loads`; a
`ValueError` from `js_var_to_json` propagates.  The parsed document is
modelled by the strict-JSON text that produced it. -/
def extract_and_save (varname : LC) (source : LC) : Except String (Option LC) :=
  match js_var_to_json varname source with
  | .error e => .error e
  | .ok raw =>
    let j := js_to_json raw
    if jsonValid j then .ok (some j) else .ok none

/-- The module-level batch (lines 127-133): sequential `extract_and_save`
calls; an uncaught exception aborts the whole script, so the remaining
items are never processed. -/
def runBatch : List LC → LC → Except String (List (Option LC))
  | [], _ => .ok []
  | n :: rest, source =>
    match extract_and_save n source with
    | .error e => .error e
    | .ok r =>
      match runBatch rest source with
      | .error e => .error e
      | .ok rs => .ok (r :: rs)

/-! ## `process_demographics.py` -/

/-- `name.lower().replace("&","and").replace(",","").strip()`
(lines 35 and 37 of `process_demographics.py`). -/
def normFuzzy (s : LC) : LC :=
  let low := s.map Char.toLower
  let amp := low.foldr (fun c acc => (if c = '&' then toL "and" else [c]) ++ acc) []
  let noComma := amp.filter (fun c => c ≠ ',')
  ((noComma.dropWhile wsChar).reverse.dropWhile wsChar).reverse

/-- Length of the common prefix of two lists. -/
def commonRun : LC → LC → Nat
  | x :: xs, y :: ys => if x = y then commonRun xs ys + 1 else 0
  | _, _ => 0

/-- Modelled from the spec: `difflib.SequenceMatcher.find_longest_match`
(stdlib code external to this repository, no junk since both strings are
short): the longest common substring, the tie broken by the least starting
position pair, returned as (start in `a`, start in `b`, length). -/
def flmRow (a b : LC) (i : Nat) (best : Nat × Nat × Nat) : Nat × Nat × Nat :=
  (List.range b.length).foldl (fun best2 j =>
    let k := commonRun (a.drop i) (b.drop j)
    if k > best2.2.2 then (i, j, k) else best2) best

def flm (a b : LC) : Nat × Nat × Nat :=
  (List.range a.length).foldl (fun best i => flmRow a b i best) (0, 0, 0)

/-- Modelled from the spec: the total size of
`difflib.SequenceMatcher.get_matching_blocks`, by the recursive split at
the longest match (fuel-indexed; the recursion depth is below the length
of `a`, so the fuel used at top level is generous). -/
def matchesTotal : Nat → LC → LC → Nat
  | 0, _, _ => 0
  | Nat.succ fuel, a, b =>
    match flm a b with
    | (i, j, k) =>
      if k = 0 then 0
      else matchesTotal fuel (a.take i) (b.take j) + k +
        matchesTotal fuel (a.drop (i + k)) (b.drop (j + k))

/-- Modelled from the spec: `SequenceMatcher(None, a, b).ratio()` as an
exact rational `2*M/T`. -/
def ratioSM (a b : LC) : ℚ :=
  2 * (matchesTotal (a.length + b.length + 1) a b : ℚ) /
    ((a.length : ℚ) + (b.length : ℚ))

/-- `fuzzy_match(name, candidates, threshold)` (lines 30-44): best score
with strict-improvement updates, then the threshold test. -/
def fuzzy_match (name : LC) (candidates : List LC) (threshold : ℚ) :
    Option LC × ℚ :=
  let nameNorm := normFuzzy name
  let best := candidates.foldl (fun best c =>
    let score := ratioSM nameNorm (normFuzzy c)
    if score > best.2 then (some c, score) else best)
    ((none : Option LC), (0 : ℚ))
  if best.2 ≥ threshold then best else (none, best.2)

/-- Python `round(q, 1)` on an exact rational: round half to even at one
decimal. -/
def roundHalfEven (q : ℚ) : ℤ :=
  let f : ℤ := ⌊q⌋
  let r : ℚ := q - (f : ℚ)
  if r < 1 / 2 then f
  else if 1 / 2 < r then f + 1
  else if f % 2 = 0 then f else f + 1

def round1 (q : ℚ) : ℚ := (roundHalfEven (q * 10) : ℚ) / 10

/-- A constituency record as built by either provider. -/
structure DemRec where
  name : LC
  white_pct : Option ℚ
  asian_pct : Option ℚ
  black_pct : Option ℚ
  mixed_pct : Option ℚ
  other_pct : Option ℚ
  nonwhite_pct : Option ℚ
  gss_code : Option LC
deriving DecidableEq

/-- The per-row record construction of `process_excel` (lines 123-148):
each present percentage column is rounded to one decimal; a missing column
or unconvertible cell yields `none`; then the non-white derivation. -/
def excelRecord (name : LC) (gss : Option LC) (w a b m o : Option ℚ) : DemRec :=
  let w1 := w.map round1
  let a1 := a.map round1
  let b1 := b.map round1
  let m1 := m.map round1
  let o1 := o.map round1
  let nw : Option ℚ :=
    match w1 with
    | some x => some (round1 (100 - x))
    | none =>
      match a1, b1, m1, o1 with
      | some av, some bv, some mv, some ov => some (round1 (av + bv + mv + ov))
      | _, _, _, _ => none
  { name := name, white_pct := w1, asian_pct := a1, black_pct := b1,
    mixed_pct := m1, other_pct := o1, nonwhite_pct := nw, gss_code := gss }

/-- The per-tuple record construction of `load_manual_data`
(lines 263-275). -/
def manualRecord (name : LC) (w a b m o : ℚ) : DemRec :=
  { name := name, white_pct := some w, asian_pct := some a,
    black_pct := some b, mixed_pct := some m, other_pct := some o,
    nonwhite_pct := some (round1 (100 - w)), gss_code := none }

/-- Smart-quote characters folded by `normalize_name`. -/
def rsq : Char := Char.ofNat 0x2019

def lsq : Char := Char.ofNat 0x2018

def ldq : Char := Char.ofNat 0x201c

def rdq : Char := Char.ofNat 0x201d

/-- `normalize_name(s)` (lines 328-329): fold smart quotes to their ASCII
equivalents.  The four `str.replace` calls on single characters amount to a
character map. -/
def normalize_name (s : LC) : LC :=
  s.map (fun c =>
    if c = rsq then apos
    else if c = lsq then apos
    else if c = ldq then dquote
    else if c = rdq then dquote
    else c)

/-- A roster entry of `mp-info.json`: the optional constituency field. -/
structure MpRec where
  con : Option LC
deriving DecidableEq

/-- `con_to_ministers[norm].append(name)` with dict insertion-order
semantics: the association list keeps the first-insertion position of each
key and appends the new name at the end of its list. -/
def addMin : List (LC × List LC) → LC → LC → List (LC × List LC)
  | [], k, n => [(k, [n])]
  | (k2, l) :: rest, k, n =>
    if k2 = k then (k2, l ++ [n]) :: rest else (k2, l) :: addMin rest k n

/-- One iteration of the reverse-lookup construction loop of
`build_output` (lines 333-340): skip an entry with an absent or empty
constituency, otherwise file the roster name under the normalized
constituency. -/
def ctmStep (acc : List (LC × List LC)) (p : LC × MpRec) : List (LC × List LC) :=
  match p.2.con with
  | some c => if c = [] then acc else addMin acc (normalize_name c) p.1
  | none => acc

/-- The reverse lookup `con_to_ministers` of `build_output`
(lines 331-340). -/
def conToMinisters (mp : List (LC × MpRec)) : List (LC × List LC) :=
  mp.foldl ctmStep []

/-- Python `norm_name in con_to_ministers` plus indexing, on the
association list. -/
def lookupCtm : List (LC × List LC) → LC → Option (List LC)
  | [], _ => none
  | (k2, l) :: rest, k => if k2 = k then some l else lookupCtm rest k

/-- Stated from the spec, for comparison with the code: the list of
roster-entry names whose present, non-empty constituency field normalizes
to `k`, in roster insertion order. -/
def ministersOf (mp : List (LC × MpRec)) (k : LC) : List LC :=
  mp.filterMap (fun p =>
    match p.2.con with
    | some c => if c ≠ [] ∧ normalize_name c = k then some p.1 else none
    | none => none)

/-- A per-constituency entry of the output document (lines 376-388). -/
structure OutEntry where
  white_pct : Option ℚ
  asian_pct : Option ℚ
  black_pct : Option ℚ
  mixed_pct : Option ℚ
  other_pct : Option ℚ
  nonwhite_pct : Option ℚ
  gss_code : Option LC
  ministers : Option (List LC)
deriving DecidableEq

/-- The `_metadata` block (lines 343-361); the coverage count is the only
input-dependent part. -/
structure MetaBlock where
  description : String
  source : String
  categories : List (String × String)
  last_updated : String
  coverage : Nat
  notes : List String
deriving DecidableEq

def metaFor (n : Nat) : MetaBlock :=
  { description := "Constituency demographics from Census 2021 (England, Wales, NI) and Census 2022 (Scotland), mapped to 2024 parliamentary constituency boundaries",
    source := "ONS Census 2021 table TS021, NRS Census 2022 table UV201, NISRA Census 2021 table MS-B01, via House of Commons Library",
    categories :=
      [("white_pct", "White (includes White British, White Irish, Gypsy/Traveller, Other White)"),
       ("asian_pct", "Asian or Asian British (Indian, Pakistani, Bangladeshi, Chinese, Other Asian)"),
       ("black_pct", "Black, Black British, Caribbean or African"),
       ("mixed_pct", "Mixed or Multiple ethnic groups"),
       ("other_pct", "Other ethnic group (Arab, Other)")],
    last_updated := "2026-02-10",
    coverage := n,
    notes :=
      ["Percentages are from Census 2021/2022, re-mapped to 2024 constituency boundaries by House of Commons Library",
       "Scotland census was conducted in 2022 (one year later than rest of UK)",
       "Northern Ireland uses different census categories, aggregated to match E&W broad groups",
       "Minor rounding means percentages may not sum to exactly 100%"] }

/-- The fixed `uk_average` block (lines 362-370). -/
structure UkAverage where
  white_pct : ℚ
  asian_pct : ℚ
  black_pct : ℚ
  mixed_pct : ℚ
  other_pct : ℚ
  nonwhite_pct : ℚ
  source : String
deriving DecidableEq

def ukAverageConst : UkAverage :=
  { white_pct := 81.7, asian_pct := 9.3, black_pct := 4.0, mixed_pct := 2.9,
    other_pct := 2.1, nonwhite_pct := 18.3,
    source := "Census 2021 England & Wales (England & Wales only; UK-wide including Scotland ~16% non-White)" }

/-- The output document: a dict literal with exactly the three top-level
keys `_metadata`, `uk_average`, `constituencies` (lines 342-372). -/
structure OutDoc where
  _metadata : MetaBlock
  uk_average : UkAverage
  constituencies : List (LC × OutEntry)
deriving DecidableEq

/-- The per-record entry construction of the output loop (lines 374-388):
percentages copied, the GSS code only when truthy, the ministers list only
when the normalized name is a key of the reverse lookup. -/
def mkOutEntry (ctm : List (LC × List LC)) (c : DemRec) : OutEntry :=
  { white_pct := c.white_pct, asian_pct := c.asian_pct,
    black_pct := c.black_pct, mixed_pct := c.mixed_pct,
    other_pct := c.other_pct, nonwhite_pct := c.nonwhite_pct,
    gss_code := match c.gss_code with
      | some g => if g = [] then none else some g
      | none => none,
    ministers := lookupCtm ctm (normalize_name c.name) }

/-- `output["constituencies"][name] = entry` with dict semantics: an
existing key keeps its position and gets the new value; a new key goes to
the end. -/
def insertCons : List (LC × OutEntry) → LC → OutEntry → List (LC × OutEntry)
  | [], k, e => [(k, e)]
  | (k2, e2) :: rest, k, e =>
    if k2 = k then (k2, e) :: rest else (k2, e2) :: insertCons rest k e

/-- `build_output(constituencies, mp_info_path)` (lines 321-392). -/
def build_output (cons : List DemRec) (mp : List (LC × MpRec)) : OutDoc :=
  let ctm := conToMinisters mp
  { _metadata := metaFor cons.length,
    uk_average := ukAverageConst,
    constituencies :=
      cons.foldl (fun acc c => insertCons acc c.name (mkOutEntry ctm c)) [] }

/-- Stated from the spec, for comparison with the code: insertion order of
the input sequence, first occurrence of each key. -/
def firstKeys (l : List LC) : List LC :=
  l.foldl (fun acc n => if n ∈ acc then acc else acc ++ [n]) []

/-- Stated from the spec, for comparison with the code: the last input
record carrying a given constituency name. -/
def lastRec : List DemRec → LC → Option DemRec
  | [], _ => none
  | c :: rest, k =>
    match lastRec rest k with
    | some d => some d
    | none => if c.name = k then some c else none

/-- Lookup in the output constituencies mapping. -/
def lookupOut : List (LC × OutEntry) → LC → Option OutEntry
  | [], _ => none
  | (k2, e) :: rest, k => if k2 = k then some e else lookupOut rest k

/-! ## Grammars used to state the scanning and repair properties -/

/-- A terminated string-literal body under the scanner's escaping rule:
the characters after the opening quote, up to and including the first
closing quote `q` not consumed by a backslash (a backslash escapes the
next character unconditionally). -/
inductive StrBody (q : Char) : LC → Prop
  | close : StrBody q [q]
  | chr {c : Char} {s : LC} : c ≠ q → c ≠ bslash → StrBody q s →
      StrBody q (c :: s)
  | esc {e : Char} {s : LC} : StrBody q s → StrBody q (bslash :: e :: s)

/-- Well-formed literal content between a matching `op`/`cl` pair, as seen
by the depth scanner: ordinary characters, terminated string literals
(which may contain brackets), and properly nested `op ... cl` groups. -/
inductive BalancedLit (op cl : Char) : LC → Prop
  | nil : BalancedLit op cl []
  | other {c : Char} {s : LC} : c ≠ op → c ≠ cl → c ≠ dquote → c ≠ apos →
      BalancedLit op cl s → BalancedLit op cl (c :: s)
  | str {q : Char} {s t : LC} : StrBody q s → (q = dquote ∨ q = apos) →
      BalancedLit op cl t → BalancedLit op cl (q :: s ++ t)
  | nest {s t : LC} : BalancedLit op cl s → BalancedLit op cl t →
      BalancedLit op cl (op :: s ++ cl :: t)

/-- String-literal characters tame for the repair substitutions: anything
except the delimiter, the backslash (escapes are not modelled in this
grammar), and the three lookbehind characters `{`, `,`, newline. -/
def strCChar (c : Char) : Bool :=
  c ≠ dquote && c ≠ bslash && c ≠ lbrc && c ≠ ',' && c ≠ nlChar

/-- Characters a strict JSON number can contain. -/
def jnumChar (c : Char) : Bool :=
  digitChar c || c = '-' || c = '+' || c = Char.ofNat 46 || c = 'e' || c = 'E'

/-- Strict JSON texts, generated with explicit whitespace and restricted
string literals (`strCChar`): tag 0 is a value, tag 1 an array item list,
tag 2 an object member list. -/
inductive JG : Nat → LC → Prop
  | vnull : JG 0 (toL "null")
  | vtrue : JG 0 (toL "true")
  | vfalse : JG 0 (toL "false")
  | vnum {s : LC} : s ≠ [] → (∀ c ∈ s, jnumChar c = true) → JG 0 s
  | vstr {s : LC} : (∀ c ∈ s, strCChar c = true) →
      JG 0 (dquote :: s ++ [dquote])
  | varrE {w : LC} : (∀ c ∈ w, wsChar c = true) → JG 0 (lbrk :: w ++ [rbrk])
  | varr {s : LC} : JG 1 s → JG 0 (lbrk :: s ++ [rbrk])
  | vobjE {w : LC} : (∀ c ∈ w, wsChar c = true) → JG 0 (lbrc :: w ++ [rbrc])
  | vobj {s : LC} : JG 2 s → JG 0 (lbrc :: s ++ [rbrc])
  | iOne {w1 v w2 : LC} : (∀ c ∈ w1, wsChar c = true) → JG 0 v →
      (∀ c ∈ w2, wsChar c = true) → JG 1 (w1 ++ v ++ w2)
  | iCons {w1 v w2 rest : LC} : (∀ c ∈ w1, wsChar c = true) → JG 0 v →
      (∀ c ∈ w2, wsChar c = true) → JG 1 rest →
      JG 1 (w1 ++ v ++ w2 ++ ',' :: rest)
  | mOne {w1 k w2 w3 v w4 : LC} : (∀ c ∈ w1, wsChar c = true) →
      (∀ c ∈ k, strCChar c = true) → (∀ c ∈ w2, wsChar c = true) →
      (∀ c ∈ w3, wsChar c = true) → JG 0 v → (∀ c ∈ w4, wsChar c = true) →
      JG 2 (w1 ++ dquote :: k ++ dquote :: w2 ++ ':' :: w3 ++ v ++ w4)
  | mCons {w1 k w2 w3 v w4 rest : LC} : (∀ c ∈ w1, wsChar c = true) →
      (∀ c ∈ k, strCChar c = true) → (∀ c ∈ w2, wsChar c = true) →
      (∀ c ∈ w3, wsChar c = true) → JG 0 v → (∀ c ∈ w4, wsChar c = true) →
      JG 2 rest →
      JG 2 (w1 ++ dquote :: k ++ dquote :: w2 ++ ':' :: w3 ++ v ++ w4 ++ ',' :: rest)

/-- A character the bareword-key pattern can traverse: whitespace, word
characters, or a lookbehind trigger. -/
def keyClass (c : Char) : Bool := wsChar c || wordChar c || keyTrigger c

/-- A prefix `u` is key-safe when no bareword-key match can end at a colon
placed right after it: reading `u` backwards one meets, before anything
else could complete the pattern, either a character outside `keyClass`
with no later trigger, or a non-word non-whitespace character followed
only by whitespace. -/
def SafeU (u : LC) : Prop :=
  (∃ x d y, u = x ++ d :: y ∧ keyClass d = false ∧
    (∀ c ∈ y, keyTrigger c = false)) ∨
  (∃ x d y, u = x ++ d :: y ∧ wordChar d = false ∧ wsChar d = false ∧
    (∀ c ∈ y, wsChar c = true))

/-- Every colon occurrence in `t` has a key-safe prefix. -/
def ColonsSafe (t : LC) : Prop :=
  ∀ u v, t = u ++ ':' :: v → SafeU u

/-- The first non-whitespace character of `t` exists and is neither `}`
nor `]` (so no trailing-comma match can begin just before `t`). -/
def HeadOk (t : LC) : Prop :=
  ∃ w b r, t = w ++ b :: r ∧ (∀ c ∈ w, wsChar c = true) ∧
    wsChar b = false ∧ b ≠ rbrc ∧ b ≠ rbrk

/-- Every comma occurrence in `t` is followed, within `t`, by a first
non-whitespace character that is not a closing bracket. -/
def CommasSafe (t : LC) : Prop :=
  ∀ u v, t = u ++ ',' :: v → HeadOk v

/-- Stated from the spec, for comparison with the code: the non-white
derivation invariant on a produced record.  If white is present the
derived field is `round(100 - white, 1)`; else if all four minority
categories are present it is their sum rounded to one decimal; else it is
absent. -/
def derivOk (r : DemRec) : Prop :=
  match r.white_pct with
  | some x => r.nonwhite_pct = some (round1 (100 - x))
  | none =>
    match r.asian_pct, r.black_pct, r.mixed_pct, r.other_pct with
    | some a, some b, some m, some o =>
        r.nonwhite_pct = some (round1 (a + b + m + o))
    | _, _, _, _ => r.nonwhite_pct = none

/-! ## Theorems -/

set_option maxRecDepth 2000

/-- Evaluation of the two similarity scores and of the whole
`fuzzy_match` call of testable property 6, done in chunks (per scan row of
the longest-match search) to keep each kernel computation small. -/
theorem fuzzy_cardiff_eval :
    ratioSM (normFuzzy (toL "Cardiff South"))
        (normFuzzy (toL "Cardiff South and Penarth")) = 13 / 19 ∧
    ratioSM (normFuzzy (toL "Cardiff South"))
        (normFuzzy (toL "Cardiff North")) = 11 / 13 ∧
    fuzzy_match (toL "Cardiff South")
        [toL "Cardiff South and Penarth", toL "Cardiff North"] (4 / 5) =
      (some (toL "Cardiff North"), 11 / 13) := by
  have hA : normFuzzy (toL "Cardiff South") = toL "cardiff south" := by decide
  have hB1 : normFuzzy (toL "Cardiff South and Penarth") =
      toL "cardiff south and penarth" := by decide
  have hB2 : normFuzzy (toL "Cardiff North") = toL "cardiff north" := by decide
  have hrg : List.range (toL "cardiff south").length =
      [0,1,2,3,4,5,6,7,8,9,10,11,12] := by decide
  have hf1 : flm (toL "cardiff south") (toL "cardiff south and penarth") =
      (0,0,13) := by
    have r0 : flmRow (toL "cardiff south") (toL "cardiff south and penarth") 0 (0,0,0) = (0,0,13) := by decide
    have r1 : flmRow (toL "cardiff south") (toL "cardiff south and penarth") 1 (0,0,13) = (0,0,13) := by decide
    have r2 : flmRow (toL "cardiff south") (toL "cardiff south and penarth") 2 (0,0,13) = (0,0,13) := by decide
    have r3 : flmRow (toL "cardiff south") (toL "cardiff south and penarth") 3 (0,0,13) = (0,0,13) := by decide
    have r4 : flmRow (toL "cardiff south") (toL "cardiff south and penarth") 4 (0,0,13) = (0,0,13) := by decide
    have r5 : flmRow (toL "cardiff south") (toL "cardiff south and penarth") 5 (0,0,13) = (0,0,13) := by decide
    have r6 : flmRow (toL "cardiff south") (toL "cardiff south and penarth") 6 (0,0,13) = (0,0,13) := by decide
    have r7 : flmRow (toL "cardiff south") (toL "cardiff south and penarth") 7 (0,0,13) = (0,0,13) := by decide
    have r8 : flmRow (toL "cardiff south") (toL "cardiff south and penarth") 8 (0,0,13) = (0,0,13) := by decide
    have r9 : flmRow (toL "cardiff south") (toL "cardiff south and penarth") 9 (0,0,13) = (0,0,13) := by decide
    have r10 : flmRow (toL "cardiff south") (toL "cardiff south and penarth") 10 (0,0,13) = (0,0,13) := by decide
    have r11 : flmRow (toL "cardiff south") (toL "cardiff south and penarth") 11 (0,0,13) = (0,0,13) := by decide
    have r12 : flmRow (toL "cardiff south") (toL "cardiff south and penarth") 12 (0,0,13) = (0,0,13) := by decide
    rw [flm, hrg]
    simp only [List.foldl_cons, List.foldl_nil, r0, r1, r2, r3, r4, r5, r6,
      r7, r8, r9, r10, r11, r12]
  have hf2 : flm (toL "cardiff south") (toL "cardiff north") = (0,0,8) := by
    have r0 : flmRow (toL "cardiff south") (toL "cardiff north") 0 (0,0,0) = (0,0,8) := by decide
    have r1 : flmRow (toL "cardiff south") (toL "cardiff north") 1 (0,0,8) = (0,0,8) := by decide
    have r2 : flmRow (toL "cardiff south") (toL "cardiff north") 2 (0,0,8) = (0,0,8) := by decide
    have r3 : flmRow (toL "cardiff south") (toL "cardiff north") 3 (0,0,8) = (0,0,8) := by decide
    have r4 : flmRow (toL "cardiff south") (toL "cardiff north") 4 (0,0,8) = (0,0,8) := by decide
    have r5 : flmRow (toL "cardiff south") (toL "cardiff north") 5 (0,0,8) = (0,0,8) := by decide
    have r6 : flmRow (toL "cardiff south") (toL "cardiff north") 6 (0,0,8) = (0,0,8) := by decide
    have r7 : flmRow (toL "cardiff south") (toL "cardiff north") 7 (0,0,8) = (0,0,8) := by decide
    have r8 : flmRow (toL "cardiff south") (toL "cardiff north") 8 (0,0,8) = (0,0,8) := by decide
    have r9 : flmRow (toL "cardiff south") (toL "cardiff north") 9 (0,0,8) = (0,0,8) := by decide
    have r10 : flmRow (toL "cardiff south") (toL "cardiff north") 10 (0,0,8) = (0,0,8) := by decide
    have r11 : flmRow (toL "cardiff south") (toL "cardiff north") 11 (0,0,8) = (0,0,8) := by decide
    have r12 : flmRow (toL "cardiff south") (toL "cardiff north") 12 (0,0,8) = (0,0,8) := by decide
    rw [flm, hrg]
    simp only [List.foldl_cons, List.foldl_nil, r0, r1, r2, r3, r4, r5, r6,
      r7, r8, r9, r10, r11, r12]
  have hm1 : matchesTotal 39 (toL "cardiff south")
      (toL "cardiff south and penarth") = 13 := by
    rw [show (39 : Nat) = Nat.succ 38 from rfl]
    rw [matchesTotal, hf1]
    norm_num
    decide
  have hm2 : matchesTotal 27 (toL "cardiff south") (toL "cardiff north") = 11 := by
    rw [show (27 : Nat) = Nat.succ 26 from rfl]
    rw [matchesTotal, hf2]
    norm_num
    decide
  have hs1 : ratioSM (normFuzzy (toL "Cardiff South"))
      (normFuzzy (toL "Cardiff South and Penarth")) = 13 / 19 := by
    rw [ratioSM, hA, hB1]
    rw [show (toL "cardiff south").length +
      (toL "cardiff south and penarth").length + 1 = 39 from by decide]
    rw [hm1, show (toL "cardiff south").length = 13 from by decide,
      show (toL "cardiff south and penarth").length = 25 from by decide]
    norm_num
  have hs2 : ratioSM (normFuzzy (toL "Cardiff South"))
      (normFuzzy (toL "Cardiff North")) = 11 / 13 := by
    rw [ratioSM, hA, hB2]
    rw [show (toL "cardiff south").length +
      (toL "cardiff north").length + 1 = 27 from by decide]
    rw [hm2, show (toL "cardiff south").length = 13 from by decide,
      show (toL "cardiff north").length = 13 from by decide]
    norm_num
  refine ⟨hs1, hs2, ?_⟩
  simp only [fuzzy_match, List.foldl]
  rw [hs1, hs2]
  norm_num

/-- C2, counterexample.  The claim allows only the outcomes
`(some "Cardiff South and Penarth", s)` with `s ≥ 0.80`, or `(none, s)`
with every score below `0.80`.  The call in fact returns
`(some "Cardiff North", 11/13)`: a third outcome, since
`"Cardiff North" ≠ "Cardiff South and Penarth"` while its score
`11/13 ≈ 0.846` is at or above the threshold. -/
theorem c2_counterexample :
    fuzzy_match (toL "Cardiff South")
        [toL "Cardiff South and Penarth", toL "Cardiff North"] (4 / 5) =
      (some (toL "Cardiff North"), 11 / 13) ∧
    toL "Cardiff North" ≠ toL "Cardiff South and Penarth" ∧
    (4 / 5 : ℚ) ≤ 11 / 13 := by
  refine ⟨fuzzy_cardiff_eval.2.2, by decide, by norm_num⟩

/-- C2, amended.  For the call
`fuzzy_match("Cardiff South", ["Cardiff South and Penarth", "Cardiff North"], 0.80)`
the result is `("Cardiff North", 11/13)`: "Cardiff North" scores
`11/13 ≈ 0.846`, at or above the threshold, and strictly outscores
"Cardiff South and Penarth", whose score is `13/19 ≈ 0.684`. -/
theorem c2_fuzzy_cardiff :
    fuzzy_match (toL "Cardiff South")
        [toL "Cardiff South and Penarth", toL "Cardiff North"] (4 / 5) =
      (some (toL "Cardiff North"), 11 / 13) ∧
    ratioSM (normFuzzy (toL "Cardiff South"))
        (normFuzzy (toL "Cardiff South and Penarth")) = 13 / 19 ∧
    (13 / 19 : ℚ) < 11 / 13 ∧ (4 / 5 : ℚ) ≤ 11 / 13 := by
  refine ⟨fuzzy_cardiff_eval.2.2, fuzzy_cardiff_eval.1, by norm_num, by norm_num⟩

/-- C5.  For every record produced by either provider, the derived
non-white percentage satisfies the spec derivation: `round(100 - white, 1)`
when white is present, else the rounded sum of the four minority
categories when all four are present, else absent.  (In the Excel
provider the stored categories are the per-cell rounded values; the
manual provider always carries a white percentage.) -/
theorem c5_derived_nonwhite :
    (∀ name gss w a b m o, derivOk (excelRecord name gss w a b m o)) ∧
    (∀ name w a b m o, derivOk (manualRecord name w a b m o)) := by
  constructor
  · intro name gss w a b m o
    unfold derivOk excelRecord
    cases w <;> cases a <;> cases b <;> cases m <;> cases o <;> simp
  · intro name w a b m o
    unfold derivOk manualRecord
    simp

/-- C1, counterexample.  With source `"var A = [1] var C = [1,,]"`, the
requested name `B` has no assignment: `extract_and_save` raises (the
`ValueError` of `js_var_to_json` is not caught), and a batch that asks for
`B` before `A` aborts without extracting the present literal `A` — the
batch does not complete and no null is recorded. -/
theorem c1_counterexample :
    extract_and_save (toL "B") (toL "var A = [1] var C = [1,,]") =
      .error ("Could not find var " ++ String.mk (toL "B")) ∧
    runBatch [toL "B", toL "A"] (toL "var A = [1] var C = [1,,]") =
      .error ("Could not find var " ++ String.mk (toL "B")) := by
  constructor <;> rfl

/-- C1, amended.  A requested name whose assignment is missing makes
`extract_and_save` raise `ValueError` (not return null), and the batch
aborts at that item, leaving the remaining items unprocessed.  Only a
post-repair JSON parse failure is recorded as null without raising, and
only then does the batch continue. -/
theorem c1_batch_isolation :
    (∀ name source, findAssign name source = none →
      extract_and_save name source =
        .error ("Could not find var " ++ String.mk name)) ∧
    (∀ name source raw, js_var_to_json name source = .ok raw →
      jsonValid (js_to_json raw) = false →
      extract_and_save name source = .ok none) ∧
    (∀ name source raw, js_var_to_json name source = .ok raw →
      jsonValid (js_to_json raw) = true →
      extract_and_save name source = .ok (some (js_to_json raw))) ∧
    (∀ name rest source e, extract_and_save name source = .error e →
      runBatch (name :: rest) source = .error e) ∧
    (∀ name rest source r, extract_and_save name source = .ok r →
      runBatch (name :: rest) source = (runBatch rest source).map (r :: ·)) := by
  refine ⟨?_, ?_, ?_, ?_, ?_⟩
  · intro name source hfind
    simp only [extract_and_save, js_var_to_json, hfind]
  · intro name source raw hok hbad
    simp only [extract_and_save, hok, hbad]
    simp
  · intro name source raw hok hgood
    simp only [extract_and_save, hok, hgood]
    simp
  · intro name rest source e herr
    simp only [runBatch, herr]
  · intro name rest source r hok
    simp only [runBatch, hok]
    cases runBatch rest source <;> simp [Except.map]

/-- C1, witness: in `"var A = [1] var C = [1,,]"` the missing name `B`
raises and aborts the batch, while the present but unparseable literal
`C` is recorded as null. -/
theorem c1_batch_isolation_witness :
    extract_and_save (toL "B") (toL "var A = [1] var C = [1,,]") =
      .error ("Could not find var " ++ String.mk (toL "B")) ∧
    extract_and_save (toL "C") (toL "var A = [1] var C = [1,,]") = .ok none ∧
    extract_and_save (toL "A") (toL "var A = [1] var C = [1,,]") =
      .ok (some (js_to_json (toL "[1]"))) ∧
    runBatch [toL "B", toL "A"] (toL "var A = [1] var C = [1,,]") =
      .error ("Could not find var " ++ String.mk (toL "B")) := by
  refine ⟨c1_batch_isolation.1 _ _ (by rfl),
    c1_batch_isolation.2.1 _ _ (toL "[1,,]") (by rfl) (by rfl),
    c1_batch_isolation.2.2.1 _ _ (toL "[1]") (by rfl) (by rfl),
    c1_batch_isolation.2.2.2.1 _ _ _ _ (c1_batch_isolation.1 _ _ (by rfl))⟩

/-- Looking up the key just inserted by `addMin`: the name is appended to
the existing list (or starts a fresh one). -/
theorem lookupCtm_addMin_self (acc : List (LC × List LC)) (k n : LC) :
    lookupCtm (addMin acc k n) k = some ((lookupCtm acc k).getD [] ++ [n]) := by
  induction acc with
  | nil => simp [addMin, lookupCtm]
  | cons p rest ih =>
    obtain ⟨k2, l⟩ := p
    by_cases hk : k2 = k
    · subst hk
      simp [addMin, lookupCtm]
    · simp [addMin, lookupCtm, hk, ih]

/-- `addMin` does not change other keys. -/
theorem lookupCtm_addMin_ne (acc : List (LC × List LC)) (k n k2 : LC)
    (h : k2 ≠ k) : lookupCtm (addMin acc k n) k2 = lookupCtm acc k2 := by
  induction acc with
  | nil => simp [addMin, lookupCtm, Ne.symm h]
  | cons p rest ih =>
    obtain ⟨k3, l⟩ := p
    by_cases hk : k3 = k
    · subst hk
      have hne : k3 ≠ k2 := Ne.symm h
      simp [addMin, lookupCtm, hne]
    · simp only [addMin, if_neg hk]
      by_cases hk2 : k3 = k2
      · subst hk2
        simp [lookupCtm]
      · simp [lookupCtm, hk2, ih]

/-- Skipped roster entries (absent or empty constituency, or a different
normalized constituency) do not change `ministersOf`. -/
theorem ministersOf_cons_skip (nm : LC) (rec : MpRec) (rest : List (LC × MpRec))
    (k : LC)
    (h : ∀ c, rec.con = some c → c = [] ∨ normalize_name c ≠ k) :
    ministersOf ((nm, rec) :: rest) k = ministersOf rest k := by
  cases hcon : rec.con with
  | none => simp only [ministersOf, List.filterMap_cons, hcon]
  | some c =>
    rcases h c hcon with hc | hk
    · simp only [ministersOf, List.filterMap_cons, hcon]
      rw [if_neg (by simp [hc])]
    · simp only [ministersOf, List.filterMap_cons, hcon]
      rw [if_neg (by tauto)]

/-- A matching roster entry prepends its name to `ministersOf`. -/
theorem ministersOf_cons_hit (nm : LC) (rec : MpRec) (rest : List (LC × MpRec))
    (c : LC) (hcon : rec.con = some c) (hc : c ≠ []) :
    ministersOf ((nm, rec) :: rest) (normalize_name c) =
      nm :: ministersOf rest (normalize_name c) := by
  simp [ministersOf, List.filterMap_cons, hcon, hc]

/-- Folding the construction loop preserves an already-present key,
appending exactly the roster-order matches. -/
theorem ctm_foldl_some :
    ∀ (l : List (LC × MpRec)) (acc : List (LC × List LC)) (k : LC) (v : List LC),
      lookupCtm acc k = some v →
      lookupCtm (l.foldl ctmStep acc) k = some (v ++ ministersOf l k) := by
  intro l
  induction l with
  | nil =>
    intro acc k v hv
    simp only [List.foldl_nil, ministersOf, List.filterMap_nil, List.append_nil]
    exact hv
  | cons p rest ih =>
    intro acc k v hv
    obtain ⟨nm, rec⟩ := p
    simp only [List.foldl_cons]
    cases hcon : rec.con with
    | none =>
      have hstep : ctmStep acc (nm, rec) = acc := by simp [ctmStep, hcon]
      rw [hstep, ministersOf_cons_skip _ _ _ _ (by simp [hcon])]
      exact ih _ _ _ hv
    | some c =>
      by_cases hc : c = []
      · subst hc
        have hstep : ctmStep acc (nm, rec) = acc := by simp [ctmStep, hcon]
        rw [hstep, ministersOf_cons_skip _ _ _ _ (by simp [hcon])]
        exact ih _ _ _ hv
      · have hstep : ctmStep acc (nm, rec) = addMin acc (normalize_name c) nm := by
          simp [ctmStep, hcon, hc]
        rw [hstep]
        by_cases hk : normalize_name c = k
        · subst hk
          have hself := lookupCtm_addMin_self acc (normalize_name c) nm
          rw [hv] at hself
          simp only [Option.getD_some] at hself
          rw [ministersOf_cons_hit _ _ _ _ hcon hc, ih _ _ _ hself]
          simp
        · rw [ministersOf_cons_skip _ _ _ _
            (by intro c2 hc2; rw [hcon] at hc2; cases hc2; exact Or.inr hk)]
          have hne : lookupCtm (addMin acc (normalize_name c) nm) k = some v := by
            rw [lookupCtm_addMin_ne acc (normalize_name c) nm k (Ne.symm hk)]
            exact hv
          exact ih _ _ _ hne

/-- Folding the construction loop from an absent key produces the
roster-order matches exactly when there are any. -/
theorem ctm_foldl_none :
    ∀ (l : List (LC × MpRec)) (acc : List (LC × List LC)) (k : LC),
      lookupCtm acc k = none →
      lookupCtm (l.foldl ctmStep acc) k =
        if ministersOf l k = [] then none else some (ministersOf l k) := by
  intro l
  induction l with
  | nil =>
    intro acc k hv
    simp only [List.foldl_nil, ministersOf, List.filterMap_nil, if_pos]
    exact hv
  | cons p rest ih =>
    intro acc k hv
    obtain ⟨nm, rec⟩ := p
    simp only [List.foldl_cons]
    cases hcon : rec.con with
    | none =>
      have hstep : ctmStep acc (nm, rec) = acc := by simp [ctmStep, hcon]
      rw [hstep, ministersOf_cons_skip _ _ _ _ (by simp [hcon])]
      exact ih _ _ hv
    | some c =>
      by_cases hc : c = []
      · subst hc
        have hstep : ctmStep acc (nm, rec) = acc := by simp [ctmStep, hcon]
        rw [hstep, ministersOf_cons_skip _ _ _ _ (by simp [hcon])]
        exact ih _ _ hv
      · have hstep : ctmStep acc (nm, rec) = addMin acc (normalize_name c) nm := by
          simp [ctmStep, hcon, hc]
        rw [hstep]
        by_cases hk : normalize_name c = k
        · subst hk
          have hself := lookupCtm_addMin_self acc (normalize_name c) nm
          rw [hv] at hself
          simp only [Option.getD_none, List.nil_append] at hself
          rw [ministersOf_cons_hit _ _ _ _ hcon hc,
            ctm_foldl_some _ _ _ _ hself]
          simp
        · rw [ministersOf_cons_skip _ _ _ _
            (by intro c2 hc2; rw [hcon] at hc2; cases hc2; exact Or.inr hk)]
          have hne : lookupCtm (addMin acc (normalize_name c) nm) k = none := by
            rw [lookupCtm_addMin_ne acc (normalize_name c) nm k (Ne.symm hk)]
            exact hv
          exact ih _ _ hne

/-- The reverse lookup agrees with the spec-side `ministersOf` at every
key: present exactly when the match list is non-empty, and then equal to
it. -/
theorem conToMinisters_eq (mp : List (LC × MpRec)) (k : LC) :
    lookupCtm (conToMinisters mp) k =
      if ministersOf mp k = [] then none else some (ministersOf mp k) := by
  rw [conToMinisters]
  exact ctm_foldl_none mp [] k rfl

/-- Keys of `insertCons`: an existing key keeps the key list unchanged, a
new key is appended. -/
theorem map_fst_insertCons (acc : List (LC × OutEntry)) (k : LC) (e : OutEntry) :
    (insertCons acc k e).map Prod.fst =
      if k ∈ acc.map Prod.fst then acc.map Prod.fst
      else acc.map Prod.fst ++ [k] := by
  induction acc with
  | nil => simp [insertCons]
  | cons p rest ih =>
    obtain ⟨k2, e2⟩ := p
    by_cases hk : k2 = k
    · subst hk
      have h1 : insertCons ((k2, e2) :: rest) k2 e = (k2, e) :: rest := by
        simp [insertCons]
      rw [h1, List.map_cons, List.map_cons,
        if_pos (List.mem_cons_self _ _)]
    · have h1 : insertCons ((k2, e2) :: rest) k e =
          (k2, e2) :: insertCons rest k e := by
        simp [insertCons, hk]
      rw [h1, List.map_cons, List.map_cons, ih]
      have hne : ¬(k = k2) := fun hh => hk hh.symm
      by_cases hmem : k ∈ rest.map Prod.fst
      · rw [if_pos hmem, if_pos (by simp [List.mem_cons, hmem])]
      · rw [if_neg hmem, if_neg (by simp [List.mem_cons, hmem, hne]),
          List.cons_append]

/-- `insertCons` stores `e` at `k`. -/
theorem lookupOut_insertCons_self (acc : List (LC × OutEntry)) (k : LC)
    (e : OutEntry) : lookupOut (insertCons acc k e) k = some e := by
  induction acc with
  | nil => simp [insertCons, lookupOut]
  | cons p rest ih =>
    obtain ⟨k2, e2⟩ := p
    by_cases hk : k2 = k
    · subst hk
      simp [insertCons, lookupOut]
    · simp [insertCons, lookupOut, hk, ih]

/-- `insertCons` leaves other keys alone. -/
theorem lookupOut_insertCons_ne (acc : List (LC × OutEntry)) (k k2 : LC)
    (e : OutEntry) (h : k2 ≠ k) :
    lookupOut (insertCons acc k e) k2 = lookupOut acc k2 := by
  induction acc with
  | nil => simp [insertCons, lookupOut, Ne.symm h]
  | cons p rest ih =>
    obtain ⟨k3, e3⟩ := p
    by_cases hk : k3 = k
    · subst hk
      have hne : k3 ≠ k2 := Ne.symm h
      simp [insertCons, lookupOut, hne]
    · simp only [insertCons, if_neg hk]
      by_cases hk2 : k3 = k2
      · subst hk2
        simp [lookupOut]
      · simp [lookupOut, hk2, ih]

/-- Members of `insertCons` come from the old list or are the new pair. -/
theorem mem_insertCons (acc : List (LC × OutEntry)) (k : LC) (e : OutEntry)
    (p : LC × OutEntry) (h : p ∈ insertCons acc k e) :
    p ∈ acc ∨ p = (k, e) := by
  induction acc with
  | nil => simpa [insertCons] using h
  | cons q rest ih =>
    obtain ⟨k2, e2⟩ := q
    simp only [insertCons] at h
    split at h
    · rename_i hk
      rcases List.mem_cons.mp h with h2 | h2
      · exact Or.inr (by rw [h2, hk])
      · exact Or.inl (List.mem_cons_of_mem _ h2)
    · rcases List.mem_cons.mp h with h2 | h2
      · exact Or.inl (by rw [h2]; exact List.mem_cons_self _ _)
      · rcases ih h2 with h3 | h3
        · exact Or.inl (List.mem_cons_of_mem _ h3)
        · exact Or.inr h3

/-- The step function of the constituencies-assembly loop. -/
theorem keys_build_foldl (ctm : List (LC × List LC)) :
    ∀ (cons : List DemRec) (acc : List (LC × OutEntry)),
      ((cons.foldl (fun acc c => insertCons acc c.name (mkOutEntry ctm c)) acc).map
          Prod.fst) =
        (cons.map DemRec.name).foldl
          (fun ks n => if n ∈ ks then ks else ks ++ [n]) (acc.map Prod.fst) := by
  intro cons
  induction cons with
  | nil => intro acc; simp
  | cons c rest ih =>
    intro acc
    simp only [List.foldl_cons, List.map_cons]
    rw [ih, map_fst_insertCons]

/-- The value stored at a key after the assembly loop is the entry of the
last input record with that name (overwrite-wins). -/
theorem lookup_build_foldl (ctm : List (LC × List LC)) :
    ∀ (cons : List DemRec) (acc : List (LC × OutEntry)) (k : LC),
      lookupOut (cons.foldl (fun acc c => insertCons acc c.name (mkOutEntry ctm c)) acc) k =
        match lastRec cons k with
        | some c => some (mkOutEntry ctm c)
        | none => lookupOut acc k := by
  intro cons
  induction cons with
  | nil => intro acc k; simp [lastRec]
  | cons c rest ih =>
    intro acc k
    simp only [List.foldl_cons, lastRec]
    rw [ih]
    cases hl : lastRec rest k with
    | some d => rfl
    | none =>
      by_cases hk : c.name = k
      · subst hk
        simp [lookupOut_insertCons_self]
      · simp [hk, lookupOut_insertCons_ne _ _ _ _ (Ne.symm hk)]

/-- Every pair in the assembled constituencies list is the entry built
from some input record carrying that name. -/
theorem mem_build_foldl (ctm : List (LC × List LC)) :
    ∀ (cons : List DemRec) (acc : List (LC × OutEntry)) (p : LC × OutEntry),
      p ∈ cons.foldl (fun acc c => insertCons acc c.name (mkOutEntry ctm c)) acc →
      p ∈ acc ∨ ∃ c ∈ cons, p = (c.name, mkOutEntry ctm c) := by
  intro cons
  induction cons with
  | nil => intro acc p h; exact Or.inl h
  | cons c rest ih =>
    intro acc p h
    simp only [List.foldl_cons] at h
    rcases ih _ _ h with h2 | h2
    · rcases mem_insertCons _ _ _ _ h2 with h3 | h3
      · exact Or.inl h3
      · exact Or.inr ⟨c, by simp, h3⟩
    · obtain ⟨d, hd, hp⟩ := h2
      exact Or.inr ⟨d, List.mem_cons_of_mem _ hd, hp⟩

/-- Names produced by `ministersOf` are roster keys. -/
theorem ministersOf_sub_roster (mp : List (LC × MpRec)) (k n : LC)
    (h : n ∈ ministersOf mp k) : n ∈ mp.map Prod.fst := by
  simp only [ministersOf, List.mem_filterMap] at h
  obtain ⟨p, hp, he⟩ := h
  split at he
  · split at he
    · cases he
      exact List.mem_map_of_mem _ hp
    · cases he
  · cases he

/-- Names produced by `ministersOf` carry a witnessing roster entry. -/
theorem ministersOf_witness (mp : List (LC × MpRec)) (k n : LC)
    (h : n ∈ ministersOf mp k) :
    ∃ r c, (n, r) ∈ mp ∧ r.con = some c ∧ c ≠ [] ∧ normalize_name c = k := by
  simp only [ministersOf, List.mem_filterMap] at h
  obtain ⟨p, hp, he⟩ := h
  split at he
  · rename_i c hcon
    split at he
    · rename_i hcnd
      cases he
      exact ⟨p.2, c, by simpa using hp, hcon, hcnd.1, hcnd.2⟩
    · cases he
  · cases he

/-- C6.  Minister linkage is exact-match-only after normalization: the
ministers attached for a name are exactly the roster-entry names whose
constituency normalizes to the same string, in roster insertion order,
and a name matching no roster constituency gets nothing (no error).  In
particular, with roster `{"Alice": {"constituency": "Tottenham"}}` and
constituencies `["Tottenham", "Hackney"]`, Tottenham gets `["Alice"]` and
Hackney gets nothing. -/
theorem c6_minister_linkage :
    (∀ (mp : List (LC × MpRec)) (name : LC),
      lookupCtm (conToMinisters mp) (normalize_name name) =
        if ministersOf mp (normalize_name name) = [] then none
        else some (ministersOf mp (normalize_name name))) ∧
    ((build_output
        [{ name := toL "Tottenham", white_pct := none, asian_pct := none,
           black_pct := none, mixed_pct := none, other_pct := none,
           nonwhite_pct := none, gss_code := none },
         { name := toL "Hackney", white_pct := none, asian_pct := none,
           black_pct := none, mixed_pct := none, other_pct := none,
           nonwhite_pct := none, gss_code := none }]
        [(toL "Alice", { con := some (toL "Tottenham") })]).constituencies.map
        (fun p => (p.1, p.2.ministers))) =
      [(toL "Tottenham", some [toL "Alice"]), (toL "Hackney", none)] := by
  constructor
  · intro mp name
    exact conToMinisters_eq mp (normalize_name name)
  · rfl

/-- C7.  Normalization symmetry and display preservation: `normalize_name`
folds the Unicode right single quote to the ASCII apostrophe, so both
spellings of "Queen's Park" normalize identically; and normalization is a
join key only — the constituency keys of the output document are the
original record names (first occurrence, in input order), and every
attached minister name is a roster key verbatim. -/
theorem c7_normalization :
    normalize_name (toL "Queen" ++ apos :: toL "s Park") =
        normalize_name (toL "Queen" ++ rsq :: toL "s Park") ∧
    (∀ (cons : List DemRec) (mp : List (LC × MpRec)),
      (build_output cons mp).constituencies.map Prod.fst =
        firstKeys (cons.map DemRec.name)) ∧
    (∀ (cons : List DemRec) (mp : List (LC × MpRec)) (nm : LC) (e : OutEntry)
      (l : List LC), (nm, e) ∈ (build_output cons mp).constituencies →
      e.ministers = some l → ∀ n ∈ l, n ∈ mp.map Prod.fst) := by
  refine ⟨by decide, ?_, ?_⟩
  · intro cons mp
    simp only [build_output, firstKeys]
    rw [keys_build_foldl]
    simp
  · intro cons mp nm e l hmem hmin n hn
    simp only [build_output] at hmem
    rcases mem_build_foldl _ cons [] (nm, e) hmem with h | ⟨c, _, hp⟩
    · cases h
    · have he : e = mkOutEntry (conToMinisters mp) c := congrArg Prod.snd hp
      rw [he] at hmin
      simp only [mkOutEntry] at hmin
      rw [conToMinisters_eq] at hmin
      split at hmin
      · cases hmin
      · cases hmin
        exact ministersOf_sub_roster _ _ _ hn

/-- C7, witness: the concrete Alice/Tottenham document. -/
theorem c7_normalization_witness :
    normalize_name (toL "Queen" ++ apos :: toL "s Park") =
        normalize_name (toL "Queen" ++ rsq :: toL "s Park") ∧
    toL "Alice" ∈ ([(toL "Alice",
      ({ con := some (toL "Tottenham") } : MpRec))].map Prod.fst) := by
  refine ⟨c7_normalization.1, ?_⟩
  exact c7_normalization.2.2
    [{ name := toL "Tottenham", white_pct := none, asian_pct := none,
       black_pct := none, mixed_pct := none, other_pct := none,
       nonwhite_pct := none, gss_code := none }]
    [(toL "Alice", { con := some (toL "Tottenham") })]
    (toL "Tottenham")
    { white_pct := none, asian_pct := none, black_pct := none,
      mixed_pct := none, other_pct := none, nonwhite_pct := none,
      gss_code := none, ministers := some [toL "Alice"] }
    [toL "Alice"] (by decide) rfl (toL "Alice") (by decide)

/-- C8.  Output assembly: the constituencies mapping lists keys in input
insertion order (first occurrence), a later record with the same name
silently overwrites the earlier entry (the stored value is always the
entry built from the last such record), and the document consists of
exactly the three top-level blocks `_metadata`, `uk_average`,
`constituencies`, the first two being the fixed blocks of the script. -/
theorem c8_output_assembly :
    ∀ (cons : List DemRec) (mp : List (LC × MpRec)),
      (build_output cons mp).constituencies.map Prod.fst =
          firstKeys (cons.map DemRec.name) ∧
      (∀ k, lookupOut (build_output cons mp).constituencies k =
          (lastRec cons k).map (mkOutEntry (conToMinisters mp))) ∧
      build_output cons mp =
        { _metadata := metaFor cons.length, uk_average := ukAverageConst,
          constituencies := (build_output cons mp).constituencies } := by
  intro cons mp
  refine ⟨?_, ?_, rfl⟩
  · simp only [build_output, firstKeys]
    rw [keys_build_foldl]
    simp
  · intro k
    simp only [build_output]
    rw [lookup_build_foldl]
    cases lastRec cons k <;> simp [lookupOut]

/-- C9.  Invariant of the published document: every ministers list
attached by `build_output` is non-empty, and every name in it is a roster
key whose record has a present, non-empty constituency normalizing to the
same string as the entry's name; entries with no match carry no ministers
field at all. -/
theorem c9_ministers_invariant :
    ∀ (cons : List DemRec) (mp : List (LC × MpRec)) (nm : LC) (e : OutEntry),
      (nm, e) ∈ (build_output cons mp).constituencies →
      ∀ l, e.ministers = some l →
        l ≠ [] ∧ ∀ n ∈ l, ∃ r c, (n, r) ∈ mp ∧ r.con = some c ∧ c ≠ [] ∧
          normalize_name c = normalize_name nm := by
  intro cons mp nm e hmem l hmin
  simp only [build_output] at hmem
  rcases mem_build_foldl _ cons [] (nm, e) hmem with h | ⟨c, _, hp⟩
  · cases h
  · have hnm : nm = c.name := congrArg Prod.fst hp
    have he : e = mkOutEntry (conToMinisters mp) c := congrArg Prod.snd hp
    rw [he] at hmin
    simp only [mkOutEntry] at hmin
    rw [conToMinisters_eq] at hmin
    split at hmin
    · cases hmin
    · rename_i hne
      cases hmin
      subst hnm
      refine ⟨hne, ?_⟩
      intro n hn
      exact ministersOf_witness _ _ _ hn

/-- C9, witness: the Alice/Tottenham instantiation. -/
theorem c9_ministers_invariant_witness :
    [toL "Alice"] ≠ ([] : List LC) ∧
    ∀ n ∈ [toL "Alice"], ∃ (r : MpRec) (c : LC),
      (n, r) ∈ [(toL "Alice", ({ con := some (toL "Tottenham") } : MpRec))] ∧
      r.con = some c ∧ c ≠ [] ∧
      normalize_name c = normalize_name (toL "Tottenham") := by
  exact c9_ministers_invariant
    [{ name := toL "Tottenham", white_pct := none, asian_pct := none,
       black_pct := none, mixed_pct := none, other_pct := none,
       nonwhite_pct := none, gss_code := none }]
    [(toL "Alice", { con := some (toL "Tottenham") })]
    (toL "Tottenham")
    { white_pct := none, asian_pct := none, black_pct := none,
      mixed_pct := none, other_pct := none, nonwhite_pct := none,
      gss_code := none, ministers := some [toL "Alice"] }
    (by decide) [toL "Alice"] rfl

/-- Step equations of the depth scanner. -/
theorem scanLiteral_nil (op cl : Char) (d : Int) :
    scanLiteral op cl d [] = [] := by
  rw [scanLiteral.eq_def]

theorem scanLiteral_cons_op (op cl : Char) (d : Int) (rest : LC) :
    scanLiteral op cl d (op :: rest) = op :: scanLiteral op cl (d + 1) rest := by
  rw [scanLiteral.eq_def]
  simp

theorem scanLiteral_cons_close (op cl : Char) (d : Int) (rest : LC)
    (h : cl ≠ op) :
    scanLiteral op cl d (cl :: rest) =
      if d = 1 then [cl] else cl :: scanLiteral op cl (d - 1) rest := by
  rw [scanLiteral.eq_def]
  simp [h]

theorem scanLiteral_cons_quote (op cl : Char) (d : Int) (c : Char) (rest : LC)
    (hco : c ≠ op) (hcc : c ≠ cl) (hq : c = dquote ∨ c = apos) :
    scanLiteral op cl d (c :: rest) = c :: scanStr op cl d c rest := by
  rw [scanLiteral.eq_def]
  rcases hq with h | h <;> subst h <;> simp [hco, hcc]

theorem scanLiteral_cons_other (op cl : Char) (d : Int) (c : Char) (rest : LC)
    (h1 : c ≠ op) (h2 : c ≠ cl) (h3 : c ≠ dquote) (h4 : c ≠ apos) :
    scanLiteral op cl d (c :: rest) = c :: scanLiteral op cl d rest := by
  rw [scanLiteral.eq_def]
  simp [h1, h2, h3, h4]

/-- Step equations of the string-skipping loop. -/
theorem scanStr_nil (op cl : Char) (d : Int) (q : Char) :
    scanStr op cl d q [] = [] := by
  rw [scanStr.eq_def]

theorem scanStr_cons_close (op cl : Char) (d : Int) (q : Char) (rest : LC) :
    scanStr op cl d q (q :: rest) = q :: scanLiteral op cl d rest := by
  rw [scanStr.eq_def]
  simp

theorem scanStr_cons_esc (op cl : Char) (d : Int) (q : Char) (e : Char)
    (rest : LC) (hq : q ≠ bslash) :
    scanStr op cl d q (bslash :: e :: rest) =
      bslash :: e :: scanStr op cl d q rest := by
  rw [scanStr.eq_def]
  simp [Ne.symm hq]

theorem scanStr_cons_other (op cl : Char) (d : Int) (q : Char) (c : Char)
    (rest : LC) (h1 : c ≠ q) (h2 : c ≠ bslash) :
    scanStr op cl d q (c :: rest) = c :: scanStr op cl d q rest := by
  rw [scanStr.eq_def]
  simp [h1, h2]

/-- The string-skipping loop passes over exactly a terminated string body
(closing quote included) and resumes the depth scan, whatever brackets the
body contains. -/
theorem scanStr_strBody (op cl : Char) (d : Int) (q : Char)
    (hq : q ≠ bslash) {s : LC} (hs : StrBody q s) :
    ∀ t, scanStr op cl d q (s ++ t) = s ++ scanLiteral op cl d t := by
  induction hs with
  | close =>
    intro t
    exact scanStr_cons_close op cl d q t
  | @chr c s2 hcq hcb _ ih =>
    intro t
    show scanStr op cl d q (c :: (s2 ++ t)) = c :: (s2 ++ scanLiteral op cl d t)
    rw [scanStr_cons_other op cl d q c _ hcq hcb, ih]
  | @esc e s2 _ ih =>
    intro t
    show scanStr op cl d q (bslash :: e :: (s2 ++ t)) =
      bslash :: e :: (s2 ++ scanLiteral op cl d t)
    rw [scanStr_cons_esc op cl d q e _ hq, ih]

/-- The depth scan passes over balanced content without its depth counter
returning to zero: bracket characters inside string literals never affect
the count. -/
theorem scanLiteral_through (op cl : Char)
    (hoc : op ≠ cl) (hod : op ≠ dquote) (hoa : op ≠ apos)
    (hcd : cl ≠ dquote) (hca : cl ≠ apos) {s : LC}
    (hb : BalancedLit op cl s) :
    ∀ (d : Int), 1 ≤ d → ∀ t,
      scanLiteral op cl d (s ++ t) = s ++ scanLiteral op cl d t := by
  induction hb with
  | nil => intro d _ t; simp
  | @other c s2 hco hcc hcd2 hca2 _ ih =>
    intro d hd t
    show scanLiteral op cl d (c :: (s2 ++ t)) =
      c :: (s2 ++ scanLiteral op cl d t)
    rw [scanLiteral_cons_other op cl d c _ hco hcc hcd2 hca2, ih d hd]
  | @str q s2 t2 hsb hqq _ ih =>
    intro d hd t
    have hqop : q ≠ op := by
      rcases hqq with h | h <;> rw [h] <;> [exact Ne.symm hod; exact Ne.symm hoa]
    have hqcl : q ≠ cl := by
      rcases hqq with h | h <;> rw [h] <;> [exact Ne.symm hcd; exact Ne.symm hca]
    have hqb : q ≠ bslash := by
      rcases hqq with h | h <;> rw [h] <;> decide
    show scanLiteral op cl d (q :: (s2 ++ t2 ++ t)) =
      q :: (s2 ++ t2 ++ scanLiteral op cl d t)
    rw [scanLiteral_cons_quote op cl d q _ hqop hqcl hqq, List.append_assoc,
      scanStr_strBody op cl d q hqb hsb, ih d hd]
    simp
  | @nest s2 t2 _ _ ih1 ih2 =>
    intro d hd t
    show scanLiteral op cl d (op :: (s2 ++ cl :: t2 ++ t)) =
      op :: (s2 ++ cl :: t2 ++ scanLiteral op cl d t)
    rw [scanLiteral_cons_op, List.append_assoc, List.cons_append,
      ih1 (d + 1) (by omega), scanLiteral_cons_close op cl _ _ (Ne.symm hoc),
      if_neg (by omega : ¬(d + 1 = 1)), add_sub_cancel_right, ih2 d hd]
    simp

/-- C3.  Bracket-depth invariant: when the assignment is found and the
literal after it consists of balanced content between the opener and its
matching closer, the span returned by `js_var_to_json` ends exactly at
that matching closer — the first point where depth returns to zero — and
bracket characters inside single- or double-quoted string literals (with
unconditional backslash escaping) never affect the count, since
`BalancedLit` string bodies may contain arbitrary brackets. -/
theorem c3_bracket_depth :
    ∀ (name source inner t : LC) (op cl : Char),
      findAssign name source = some (op :: inner ++ cl :: t) →
      ((op = lbrk ∧ cl = rbrk) ∨ (op = lbrc ∧ cl = rbrc)) →
      BalancedLit op cl inner →
      js_var_to_json name source = .ok (op :: inner ++ [cl]) := by
  intro name source inner t op cl hfind hop hb
  have hthrough : scanLiteral op cl 0 (op :: inner ++ cl :: t) =
      op :: inner ++ [cl] := by
    have hoc : op ≠ cl := by
      rcases hop with ⟨h2, h3⟩ | ⟨h2, h3⟩ <;> subst h2 <;> subst h3 <;> decide
    have hod : op ≠ dquote := by
      rcases hop with ⟨h2, h3⟩ | ⟨h2, h3⟩ <;> subst h2 <;> subst h3 <;> decide
    have hoa : op ≠ apos := by
      rcases hop with ⟨h2, h3⟩ | ⟨h2, h3⟩ <;> subst h2 <;> subst h3 <;> decide
    have hcd : cl ≠ dquote := by
      rcases hop with ⟨h2, h3⟩ | ⟨h2, h3⟩ <;> subst h2 <;> subst h3 <;> decide
    have hca : cl ≠ apos := by
      rcases hop with ⟨h2, h3⟩ | ⟨h2, h3⟩ <;> subst h2 <;> subst h3 <;> decide
    rw [List.cons_append, scanLiteral_cons_op,
      scanLiteral_through op cl hoc hod hoa hcd hca hb (0 + 1) (by omega),
      scanLiteral_cons_close op cl _ _ (Ne.symm hoc),
      if_pos (by omega : (0 : Int) + 1 = 1)]
    simp
  rcases hop with ⟨h2, h3⟩ | ⟨h2, h3⟩ <;> subst h2 <;> subst h3
  · simp only [js_var_to_json, hfind]
    rw [hthrough]
    simp
  · simp only [js_var_to_json, hfind]
    rw [hthrough]
    simp [show ¬(lbrc = lbrk) from by decide]

/-- C3, witness: `var N = ["a [b]"] tail` — the brackets inside the string
literal are ignored and the span ends at the outer closing bracket. -/
theorem c3_bracket_depth_witness :
    js_var_to_json (toL "N")
      (toL "var N = " ++
        lbrk :: [dquote, 'a', ' ', lbrk, 'b', rbrk, dquote] ++
        rbrk :: toL " tail") =
    .ok (lbrk :: [dquote, 'a', ' ', lbrk, 'b', rbrk, dquote] ++ [rbrk]) := by
  have hsb : StrBody dquote ['a', ' ', lbrk, 'b', rbrk, dquote] :=
    .chr (by decide) (by decide) (.chr (by decide) (by decide)
      (.chr (by decide) (by decide) (.chr (by decide) (by decide)
        (.chr (by decide) (by decide) .close))))
  have hb : BalancedLit lbrk rbrk [dquote, 'a', ' ', lbrk, 'b', rbrk, dquote] :=
    BalancedLit.str hsb (Or.inl rfl) BalancedLit.nil
  exact c3_bracket_depth (toL "N")
    (toL "var N = " ++
      lbrk :: [dquote, 'a', ' ', lbrk, 'b', rbrk, dquote] ++
      rbrk :: toL " tail")
    [dquote, 'a', ' ', lbrk, 'b', rbrk, dquote] (toL " tail") lbrk rbrk
    (by decide) (Or.inl ⟨rfl, rfl⟩) hb

/-- Totality shape of the scanners: whatever the input, the scan consumes
a prefix of the text, and it either consumes the whole text (silently
extending to the end when brackets never rebalance or a string is
unterminated) or stops at an occurrence of the closing character. -/
theorem scan_shape (op cl : Char) :
    ∀ (n : Nat) (s : LC), s.length ≤ n → ∀ (d : Int) (q : Char),
      ((∃ suf, scanLiteral op cl d s ++ suf = s) ∧
        (scanLiteral op cl d s = s ∨
          ∃ pre, scanLiteral op cl d s = pre ++ [cl])) ∧
      ((∃ suf, scanStr op cl d q s ++ suf = s) ∧
        (scanStr op cl d q s = s ∨
          ∃ pre, scanStr op cl d q s = pre ++ [cl])) := by
  intro n
  induction n with
  | zero =>
    intro s hs d q
    have hnil : s = [] := List.eq_nil_of_length_eq_zero (Nat.le_zero.mp hs)
    subst hnil
    simp [scanLiteral_nil, scanStr_nil]
  | succ n ih =>
    intro s hs d q
    cases s with
    | nil => simp [scanLiteral_nil, scanStr_nil]
    | cons c rest =>
      have hlen : rest.length ≤ n := by
        simpa using Nat.succ_le_succ_iff.mp hs
      constructor
      · by_cases hop : c = op
        · subst hop
          rw [scanLiteral_cons_op]
          obtain ⟨⟨suf, hsuf⟩, hsh⟩ := (ih rest hlen (d + 1) q).1
          refine ⟨⟨suf, by rw [List.cons_append, hsuf]⟩, ?_⟩
          rcases hsh with h | ⟨pre, hpre⟩
          · exact Or.inl (by rw [h])
          · exact Or.inr ⟨c :: pre, by rw [hpre, List.cons_append]⟩
        · by_cases hcl : c = cl
          · subst hcl
            rw [scanLiteral_cons_close op c d rest (fun hh => hop hh)]
            by_cases hd : d = 1
            · rw [if_pos hd]
              exact ⟨⟨rest, rfl⟩, Or.inr ⟨[], rfl⟩⟩
            · rw [if_neg hd]
              obtain ⟨⟨suf, hsuf⟩, hsh⟩ := (ih rest hlen (d - 1) q).1
              refine ⟨⟨suf, by rw [List.cons_append, hsuf]⟩, ?_⟩
              rcases hsh with h | ⟨pre, hpre⟩
              · exact Or.inl (by rw [h])
              · exact Or.inr ⟨c :: pre, by rw [hpre, List.cons_append]⟩
          · by_cases hq2 : c = dquote ∨ c = apos
            · rw [scanLiteral_cons_quote op cl d c rest hop hcl hq2]
              obtain ⟨⟨suf, hsuf⟩, hsh⟩ := (ih rest hlen d c).2
              refine ⟨⟨suf, by rw [List.cons_append, hsuf]⟩, ?_⟩
              rcases hsh with h | ⟨pre, hpre⟩
              · exact Or.inl (by rw [h])
              · exact Or.inr ⟨c :: pre, by rw [hpre, List.cons_append]⟩
            · push_neg at hq2
              rw [scanLiteral_cons_other op cl d c rest hop hcl hq2.1 hq2.2]
              obtain ⟨⟨suf, hsuf⟩, hsh⟩ := (ih rest hlen d q).1
              refine ⟨⟨suf, by rw [List.cons_append, hsuf]⟩, ?_⟩
              rcases hsh with h | ⟨pre, hpre⟩
              · exact Or.inl (by rw [h])
              · exact Or.inr ⟨c :: pre, by rw [hpre, List.cons_append]⟩
      · by_cases hcq : c = q
        · subst hcq
          rw [scanStr_cons_close]
          obtain ⟨⟨suf, hsuf⟩, hsh⟩ := (ih rest hlen d c).1
          refine ⟨⟨suf, by rw [List.cons_append, hsuf]⟩, ?_⟩
          rcases hsh with h | ⟨pre, hpre⟩
          · exact Or.inl (by rw [h])
          · exact Or.inr ⟨c :: pre, by rw [hpre, List.cons_append]⟩
        · by_cases hcb : c = bslash
          · subst hcb
            cases rest with
            | nil =>
              rw [scanStr.eq_def]
              simp [hcq]
            | cons e rest2 =>
              rw [scanStr_cons_esc op cl d q e rest2 (fun hh => hcq hh.symm)]
              have hlen2 : rest2.length ≤ n := by
                simp only [List.length_cons] at hlen
                omega
              obtain ⟨⟨suf, hsuf⟩, hsh⟩ := (ih rest2 hlen2 d q).2
              refine ⟨⟨suf, by rw [List.cons_append, List.cons_append, hsuf]⟩, ?_⟩
              rcases hsh with h | ⟨pre, hpre⟩
              · exact Or.inl (by rw [h])
              · exact Or.inr ⟨bslash :: e :: pre,
                  by rw [hpre, List.cons_append, List.cons_append]⟩
          · rw [scanStr_cons_other op cl d q c rest hcq hcb]
            obtain ⟨⟨suf, hsuf⟩, hsh⟩ := (ih rest hlen d q).2
            refine ⟨⟨suf, by rw [List.cons_append, hsuf]⟩, ?_⟩
            rcases hsh with h | ⟨pre, hpre⟩
            · exact Or.inl (by rw [h])
            · exact Or.inr ⟨c :: pre, by rw [hpre, List.cons_append]⟩

/-- C10.  Totality of the bracket scan: whenever the assignment pattern is
found and the next character is `[` or `{`, `js_var_to_json` returns a
span without raising; the span is a prefix of the remaining text, and it
either extends silently to the end of the text (unbalanced brackets,
unterminated string) or ends at a closing-bracket character. -/
theorem c10_scan_totality :
    ∀ (name source rest : LC) (c : Char),
      findAssign name source = some (c :: rest) →
      (c = lbrk ∨ c = lbrc) →
      ∃ span, js_var_to_json name source = .ok span ∧
        (∃ suf, span ++ suf = c :: rest) ∧
        (span = c :: rest ∨ ∃ pre,
          (c = lbrk ∧ span = pre ++ [rbrk]) ∨
          (c = lbrc ∧ span = pre ++ [rbrc])) := by
  intro name source rest c hfind hc
  rcases hc with hc | hc <;> subst hc
  · refine ⟨scanLiteral lbrk rbrk 0 (lbrk :: rest), ?_, ?_, ?_⟩
    · simp [js_var_to_json, hfind]
    · exact ((scan_shape lbrk rbrk (lbrk :: rest).length (lbrk :: rest)
        le_rfl 0 dquote).1).1
    · rcases ((scan_shape lbrk rbrk (lbrk :: rest).length (lbrk :: rest)
        le_rfl 0 dquote).1).2 with h | ⟨pre, hpre⟩
      · exact Or.inl h
      · exact Or.inr ⟨pre, Or.inl ⟨rfl, hpre⟩⟩
  · refine ⟨scanLiteral lbrc rbrc 0 (lbrc :: rest), ?_, ?_, ?_⟩
    · simp [js_var_to_json, hfind, show ¬(lbrc = lbrk) from by decide]
    · exact ((scan_shape lbrc rbrc (lbrc :: rest).length (lbrc :: rest)
        le_rfl 0 dquote).1).1
    · rcases ((scan_shape lbrc rbrc (lbrc :: rest).length (lbrc :: rest)
        le_rfl 0 dquote).1).2 with h | ⟨pre, hpre⟩
      · exact Or.inl h
      · exact Or.inr ⟨pre, Or.inr ⟨rfl, hpre⟩⟩

/-- C10, witness: `var X = [1, 2` never rebalances, and `var Y = ["ab`
leaves its string unterminated; both scans return without raising. -/
theorem c10_scan_totality_witness :
    (∃ span, js_var_to_json (toL "X") (toL "var X = [1, 2") = .ok span ∧
      (∃ suf, span ++ suf = lbrk :: toL "1, 2") ∧
      (span = lbrk :: toL "1, 2" ∨ ∃ pre,
        (lbrk = lbrk ∧ span = pre ++ [rbrk]) ∨
        (lbrk = lbrc ∧ span = pre ++ [rbrc]))) ∧
    (∃ span, js_var_to_json (toL "Y")
        (toL "var Y = " ++ lbrk :: dquote :: toL "ab") = .ok span ∧
      (∃ suf, span ++ suf = lbrk :: dquote :: toL "ab") ∧
      (span = lbrk :: dquote :: toL "ab" ∨ ∃ pre,
        (lbrk = lbrk ∧ span = pre ++ [rbrk]) ∨
        (lbrk = lbrc ∧ span = pre ++ [rbrc]))) := by
  constructor
  · exact c10_scan_totality (toL "X") (toL "var X = [1, 2") (toL "1, 2")
      lbrk (by decide) (Or.inl rfl)
  · exact c10_scan_totality (toL "Y")
      (toL "var Y = " ++ lbrk :: dquote :: toL "ab") (dquote :: toL "ab")
      lbrk (by decide) (Or.inl rfl)

/-- Whitespace characters are not colons or commas. -/
theorem wsChar_ne_colon {c : Char} (h : wsChar c = true) : c ≠ ':' := by
  intro he
  subst he
  revert h
  decide

theorem wsChar_ne_comma {c : Char} (h : wsChar c = true) : c ≠ ',' := by
  intro he
  subst he
  revert h
  decide

/-- Number characters are not colons, commas, whitespace or closing
brackets. -/
theorem jnumChar_ne {c : Char} (h : jnumChar c = true) :
    c ≠ ':' ∧ c ≠ ',' ∧ wsChar c = false ∧ c ≠ rbrc ∧ c ≠ rbrk := by
  refine ⟨?_, ?_, ?_, ?_, ?_⟩
  · intro he; subst he; revert h; decide
  · intro he; subst he; revert h; decide
  · by_cases hw : wsChar c = true
    · exfalso
      simp only [wsChar, Bool.or_eq_true, decide_eq_true_eq] at hw
      rcases hw with ((((h2 | h2) | h2) | h2) | h2) | h2 <;> subst h2 <;>
        revert h <;> decide
    · simpa using hw
  · intro he; subst he; revert h; decide
  · intro he; subst he; revert h; decide

/-- Restricted string-content characters are not quotes, backslashes,
lookbehind triggers, or commas. -/
theorem strCChar_ne {c : Char} (h : strCChar c = true) :
    c ≠ dquote ∧ c ≠ bslash ∧ keyTrigger c = false ∧ c ≠ ',' := by
  simp only [strCChar, Bool.and_eq_true, decide_eq_true_eq, ne_eq] at h
  obtain ⟨⟨⟨⟨h1, h2⟩, h3⟩, h4⟩, h5⟩ := h
  refine ⟨h1, h2, ?_, h4⟩
  simp [keyTrigger, h3, h4, h5]

/-- Splitting a character occurrence across a concatenation. -/
theorem append_split {a b u v : LC} {x : Char} (h : a ++ b = u ++ x :: v) :
    (∃ u1 v1, a = u1 ++ x :: v1 ∧ u = u1 ∧ v = v1 ++ b) ∨
    (∃ u2 v2, b = u2 ++ x :: v2 ∧ u = a ++ u2 ∧ v = v2) := by
  induction a generalizing u with
  | nil =>
    right
    exact ⟨u, v, by simpa using h, by simp, rfl⟩
  | cons c a1 ih =>
    cases u with
    | nil =>
      left
      simp only [List.nil_append] at h ⊢
      cases h
      exact ⟨[], a1, by simp, rfl, by simp⟩
    | cons d u1 =>
      simp only [List.cons_append, List.cons.injEq] at h
      obtain ⟨rfl, h2⟩ := h
      rcases ih h2 with ⟨u2, v2, h3, h4, h5⟩ | ⟨u2, v2, h3, h4, h5⟩
      · exact Or.inl ⟨c :: u2, v2, by simp [h3], by simp [h4], h5⟩
      · exact Or.inr ⟨u2, v2, h3, by simp [h4], h5⟩

/-- Two decompositions of a list around single elements. -/
theorem two_splits {x y p s : LC} {d c : Char}
    (h : x ++ d :: y = p ++ c :: s) :
    (x = p ∧ d = c ∧ y = s) ∨
    (∃ m, x = p ++ c :: m ∧ s = m ++ d :: y) ∨
    (∃ m, p = x ++ d :: m ∧ y = m ++ c :: s) := by
  rcases append_split (a := x) (b := d :: y) h with
    ⟨u1, v1, h1, rfl, h3⟩ | ⟨u2, v2, h1, h2, rfl⟩
  · exact Or.inr (Or.inl ⟨v1, by simp [h1], by simp [h3]⟩)
  · cases u2 with
    | nil =>
      simp only [List.nil_append] at h1
      cases h1
      exact Or.inl ⟨(by simpa using h2 : p = x).symm, rfl, rfl⟩
    | cons e m =>
      simp only [List.cons_append, List.cons.injEq] at h1
      obtain ⟨rfl, h4⟩ := h1
      exact Or.inr (Or.inr ⟨m, by simp [h2], h4⟩)

/-- A key-safe prefix stays key-safe under any extension to the left. -/
theorem safeU_lift {u : LC} (p : LC) (h : SafeU u) : SafeU (p ++ u) := by
  rcases h with ⟨x, d, y, rfl, h2, h3⟩ | ⟨x, d, y, rfl, h2, h3, h4⟩
  · exact Or.inl ⟨p ++ x, d, y, by simp, h2, h3⟩
  · exact Or.inr ⟨p ++ x, d, y, by simp, h2, h3, h4⟩

/-- A first non-whitespace character survives appending on the right. -/
theorem headOk_append {a : LC} (b : LC) (h : HeadOk a) : HeadOk (a ++ b) := by
  obtain ⟨w, c, r, rfl, h2, h3, h4, h5⟩ := h
  exact ⟨w, c, r ++ b, by simp, h2, h3, h4, h5⟩

/-- A first non-whitespace character survives a whitespace prefix. -/
theorem headOk_ws_prepend {t : LC} (w : LC) (hw : ∀ c ∈ w, wsChar c = true)
    (h : HeadOk t) : HeadOk (w ++ t) := by
  obtain ⟨w2, c, r, rfl, h2, h3, h4, h5⟩ := h
  refine ⟨w ++ w2, c, r, by simp, ?_, h3, h4, h5⟩
  intro x hx
  rcases List.mem_append.mp hx with hx | hx
  · exact hw x hx
  · exact h2 x hx

/-- Texts without colons are colon-safe. -/
theorem colonsSafe_of_no_colon {t : LC} (h : ∀ c ∈ t, c ≠ ':') :
    ColonsSafe t := by
  intro u v hsplit
  exact absurd (h ':' (by rw [hsplit]; simp)) (by simp)

/-- Texts without commas are comma-safe. -/
theorem commasSafe_of_no_comma {t : LC} (h : ∀ c ∈ t, c ≠ ',') :
    CommasSafe t := by
  intro u v hsplit
  exact absurd (h ',' (by rw [hsplit]; simp)) (by simp)

/-- Colon safety composes over concatenation. -/
theorem colonsSafe_append {a b : LC} (ha : ColonsSafe a) (hb : ColonsSafe b) :
    ColonsSafe (a ++ b) := by
  intro u v hsplit
  rcases append_split hsplit with ⟨u1, v1, h1, h4, _⟩ | ⟨u2, v2, h1, h4, _⟩
  · rw [h4]
    exact ha u1 v1 h1
  · rw [h4]
    exact safeU_lift a (hb u2 v2 h1)

/-- Comma safety composes over concatenation. -/
theorem commasSafe_append {a b : LC} (ha : CommasSafe a) (hb : CommasSafe b) :
    CommasSafe (a ++ b) := by
  intro u v hsplit
  rcases append_split hsplit with ⟨u1, v1, h1, h4, h5⟩ | ⟨u2, v2, h1, h4, h5⟩
  · rw [h5]
    exact headOk_append b (ha u1 v1 h1)
  · rw [h5]
    exact hb u2 v2 h1

/-- Colon safety across an explicit separator colon whose prefix is
key-safe. -/
theorem colonsSafe_sep {a b : LC} (ha : ColonsSafe a) (hsa : SafeU a)
    (hb : ColonsSafe b) : ColonsSafe (a ++ ':' :: b) := by
  intro u v hsplit
  rcases append_split hsplit with ⟨u1, v1, h1, h4, _⟩ | ⟨u2, v2, h1, h4, _⟩
  · rw [h4]
    exact ha u1 v1 h1
  · rw [h4]
    cases u2 with
    | nil =>
      rw [List.append_nil]
      exact hsa
    | cons e u3 =>
      simp only [List.cons_append, List.cons.injEq] at h1
      obtain ⟨rfl, h3⟩ := h1
      have := safeU_lift (a ++ [':']) (hb u3 v2 h3)
      simpa using this

/-- Comma safety across an explicit separator comma followed by text with
a safe first character. -/
theorem commasSafe_sep {a b : LC} (ha : CommasSafe a) (hb : CommasSafe b)
    (hhb : HeadOk b) : CommasSafe (a ++ ',' :: b) := by
  intro u v hsplit
  rcases append_split hsplit with ⟨u1, v1, h1, h4, h5⟩ | ⟨u2, v2, h1, h4, h5⟩
  · rw [h5]
    exact headOk_append _ (ha u1 v1 h1)
  · cases u2 with
    | nil =>
      simp only [List.nil_append, List.cons.injEq] at h1
      rw [h5, ← h1.2]
      exact hhb
    | cons e u3 =>
      simp only [List.cons_append, List.cons.injEq] at h1
      obtain ⟨rfl, h3⟩ := h1
      rw [h5]
      exact hb u3 v2 h3

/-- Colon safety of a restricted string literal: a colon inside the
content is guarded by the opening quote, behind which no lookbehind
trigger occurs. -/
theorem colonsSafe_str {k : LC} (hk : ∀ c ∈ k, strCChar c = true) :
    ColonsSafe (dquote :: k ++ [dquote]) := by
  intro u v hsplit
  cases u with
  | nil =>
    simp only [List.nil_append] at hsplit
    have hh := congrArg List.head? hsplit
    simp only [List.cons_append, List.head?_cons, Option.some.injEq] at hh
    exact absurd hh (by decide)
  | cons e u1 =>
    simp only [List.cons_append, List.cons.injEq] at hsplit
    obtain ⟨rfl, h2⟩ := hsplit
    rcases append_split (a := k) (b := [dquote]) h2 with
      ⟨u2, v2, h3, h4, _⟩ | ⟨u2, v2, h3, h4, _⟩
    · rw [h4]
      refine Or.inl ⟨[], dquote, u2, by simp, by decide, ?_⟩
      intro c hc
      exact (strCChar_ne (hk c (by rw [h3]; simp [hc]))).2.2.1
    · exfalso
      cases u2 with
      | nil =>
        simp only [List.nil_append, List.cons.injEq] at h3
        exact absurd h3.1 (by decide)
      | cons f u3 =>
        simp only [List.cons_append, List.cons.injEq] at h3
        obtain ⟨rfl, h5⟩ := h3
        simp at h5

/-- Whitespace runs are colon- and comma-safe. -/
theorem colonsSafe_ws {w : LC} (h : ∀ c ∈ w, wsChar c = true) :
    ColonsSafe w :=
  colonsSafe_of_no_colon (fun c hc => wsChar_ne_colon (h c hc))

theorem commasSafe_ws {w : LC} (h : ∀ c ∈ w, wsChar c = true) :
    CommasSafe w :=
  commasSafe_of_no_comma (fun c hc => wsChar_ne_comma (h c hc))

/-- Number runs are colon- and comma-safe. -/
theorem colonsSafe_num {s : LC} (h : ∀ c ∈ s, jnumChar c = true) :
    ColonsSafe s :=
  colonsSafe_of_no_colon (fun c hc => (jnumChar_ne (h c hc)).1)

theorem commasSafe_num {s : LC} (h : ∀ c ∈ s, jnumChar c = true) :
    CommasSafe s :=
  commasSafe_of_no_comma (fun c hc => (jnumChar_ne (h c hc)).2.1)

/-- Restricted string literals contain no commas. -/
theorem commasSafe_str {k : LC} (hk : ∀ c ∈ k, strCChar c = true) :
    CommasSafe (dquote :: k ++ [dquote]) := by
  refine commasSafe_of_no_comma ?_
  intro c hc
  rcases List.mem_cons.mp hc with rfl | hc2
  · decide
  · rcases List.mem_append.mp hc2 with hc3 | hc3
    · exact (strCChar_ne (hk c hc3)).2.2.2
    · rcases List.mem_singleton.mp hc3 with rfl
      decide

/-- Singletons. -/
theorem colonsSafe_single {c : Char} (h : c ≠ ':') : ColonsSafe [c] :=
  colonsSafe_of_no_colon (fun d hd => by rcases List.mem_singleton.mp hd with rfl; exact h)

theorem commasSafe_single {c : Char} (h : c ≠ ',') : CommasSafe [c] :=
  commasSafe_of_no_comma (fun d hd => by rcases List.mem_singleton.mp hd with rfl; exact h)

/-- A non-whitespace, non-closing-bracket head character. -/
theorem headOk_cons (c : Char) (rest : LC) (h1 : wsChar c = false)
    (h2 : c ≠ rbrc) (h3 : c ≠ rbrk) : HeadOk (c :: rest) :=
  ⟨[], c, rest, by simp, by simp, h1, h2, h3⟩

/-- Safety of an object-member body
`w1 ++ "key" ++ w2 ++ ":" ++ w3 ++ value ++ w4`. -/
theorem memberBody_safe {w1 k w2 w3 v w4 : LC}
    (hw1 : ∀ c ∈ w1, wsChar c = true) (hk : ∀ c ∈ k, strCChar c = true)
    (hw2 : ∀ c ∈ w2, wsChar c = true) (hw3 : ∀ c ∈ w3, wsChar c = true)
    (hcv : ColonsSafe v) (hmv : CommasSafe v) (hw4 : ∀ c ∈ w4, wsChar c = true) :
    ColonsSafe (w1 ++ dquote :: k ++ dquote :: w2 ++ ':' :: w3 ++ v ++ w4) ∧
    CommasSafe (w1 ++ dquote :: k ++ dquote :: w2 ++ ':' :: w3 ++ v ++ w4) ∧
    HeadOk (w1 ++ dquote :: k ++ dquote :: w2 ++ ':' :: w3 ++ v ++ w4) := by
  have heq : w1 ++ dquote :: k ++ dquote :: w2 ++ ':' :: w3 ++ v ++ w4 =
      ((w1 ++ ((dquote :: k ++ [dquote]) ++ w2))) ++ ':' :: ((w3 ++ v) ++ w4) := by
    simp
  rw [heq]
  have hA : ColonsSafe (w1 ++ ((dquote :: k ++ [dquote]) ++ w2)) :=
    colonsSafe_append (colonsSafe_ws hw1)
      (colonsSafe_append (colonsSafe_str hk) (colonsSafe_ws hw2))
  have hmA : CommasSafe (w1 ++ ((dquote :: k ++ [dquote]) ++ w2)) :=
    commasSafe_append (commasSafe_ws hw1)
      (commasSafe_append (commasSafe_str hk) (commasSafe_ws hw2))
  have hsA : SafeU (w1 ++ ((dquote :: k ++ [dquote]) ++ w2)) := by
    refine Or.inr ⟨w1 ++ dquote :: k, dquote, w2, by simp, by decide, by decide, hw2⟩
  have hB : ColonsSafe ((w3 ++ v) ++ w4) :=
    colonsSafe_append (colonsSafe_append (colonsSafe_ws hw3) hcv)
      (colonsSafe_ws hw4)
  have hmB : CommasSafe ((w3 ++ v) ++ w4) :=
    commasSafe_append (commasSafe_append (commasSafe_ws hw3) hmv)
      (commasSafe_ws hw4)
  refine ⟨colonsSafe_sep hA hsA hB, ?_, ?_⟩
  · have : CommasSafe (':' :: ((w3 ++ v) ++ w4)) := by
      have := commasSafe_append (commasSafe_single (by decide : ':' ≠ ',')) hmB
      simpa using this
    exact commasSafe_append hmA this
  · have heq2 : (w1 ++ ((dquote :: k ++ [dquote]) ++ w2)) ++
        ':' :: ((w3 ++ v) ++ w4) =
      w1 ++ (((dquote :: k ++ [dquote]) ++ w2) ++ ':' :: ((w3 ++ v) ++ w4)) := by
      simp
    rw [heq2]
    refine headOk_ws_prepend w1 hw1 ?_
    refine headOk_append _ ?_
    refine headOk_append _ ?_
    exact headOk_append _ (headOk_cons dquote k (by decide) (by decide) (by decide))

/-- Safety of an array-item body `w1 ++ value ++ w2`. -/
theorem itemBody_safe {w1 v w2 : LC}
    (hw1 : ∀ c ∈ w1, wsChar c = true) (hcv : ColonsSafe v)
    (hmv : CommasSafe v) (hhv : HeadOk v)
    (hw2 : ∀ c ∈ w2, wsChar c = true) :
    ColonsSafe (w1 ++ v ++ w2) ∧ CommasSafe (w1 ++ v ++ w2) ∧
    HeadOk (w1 ++ v ++ w2) := by
  refine ⟨colonsSafe_append (colonsSafe_append (colonsSafe_ws hw1) hcv)
      (colonsSafe_ws hw2),
    commasSafe_append (commasSafe_append (commasSafe_ws hw1) hmv)
      (commasSafe_ws hw2), ?_⟩
  have heq : w1 ++ v ++ w2 = w1 ++ (v ++ w2) := by simp
  rw [heq]
  exact headOk_ws_prepend w1 hw1 (headOk_append _ hhv)

/-- Every text of the restricted strict-JSON grammar is colon-safe and
comma-safe (no bareword-key match and no trailing-comma match can occur
anywhere in it) and starts, after whitespace, with a character that is
not a closing bracket. -/
theorem jg_safe : ∀ (i : Nat) (t : LC), JG i t →
    ColonsSafe t ∧ CommasSafe t ∧ HeadOk t := by
  intro i t h
  induction h with
  | vnull =>
    exact ⟨colonsSafe_of_no_colon (by decide), commasSafe_of_no_comma (by decide),
      ⟨[], 'n', toL "ull", rfl, by simp, by decide, by decide, by decide⟩⟩
  | vtrue =>
    exact ⟨colonsSafe_of_no_colon (by decide), commasSafe_of_no_comma (by decide),
      ⟨[], 't', toL "rue", rfl, by simp, by decide, by decide, by decide⟩⟩
  | vfalse =>
    exact ⟨colonsSafe_of_no_colon (by decide), commasSafe_of_no_comma (by decide),
      ⟨[], 'f', toL "alse", rfl, by simp, by decide, by decide, by decide⟩⟩
  | @vnum s hne hchars =>
    refine ⟨colonsSafe_num hchars, commasSafe_num hchars, ?_⟩
    cases s with
    | nil => exact absurd rfl hne
    | cons c rest =>
      have hc := jnumChar_ne (hchars c (by simp))
      exact headOk_cons c rest hc.2.2.1 hc.2.2.2.1 hc.2.2.2.2
  | vstr hk =>
    refine ⟨colonsSafe_str hk, commasSafe_str hk, ?_⟩
    exact headOk_append _ (headOk_cons dquote _ (by decide) (by decide) (by decide))
  | varrE hw =>
    refine ⟨?_, ?_, ?_⟩
    · refine colonsSafe_of_no_colon ?_
      intro c hc
      rcases List.mem_cons.mp hc with rfl | hc2
      · decide
      · rcases List.mem_append.mp hc2 with hc3 | hc3
        · exact wsChar_ne_colon (hw c hc3)
        · rcases List.mem_singleton.mp hc3 with rfl; decide
    · refine commasSafe_of_no_comma ?_
      intro c hc
      rcases List.mem_cons.mp hc with rfl | hc2
      · decide
      · rcases List.mem_append.mp hc2 with hc3 | hc3
        · exact wsChar_ne_comma (hw c hc3)
        · rcases List.mem_singleton.mp hc3 with rfl; decide
    · exact headOk_append _ (headOk_cons lbrk _ (by decide) (by decide) (by decide))
  | vobjE hw =>
    refine ⟨?_, ?_, ?_⟩
    · refine colonsSafe_of_no_colon ?_
      intro c hc
      rcases List.mem_cons.mp hc with rfl | hc2
      · decide
      · rcases List.mem_append.mp hc2 with hc3 | hc3
        · exact wsChar_ne_colon (hw c hc3)
        · rcases List.mem_singleton.mp hc3 with rfl; decide
    · refine commasSafe_of_no_comma ?_
      intro c hc
      rcases List.mem_cons.mp hc with rfl | hc2
      · decide
      · rcases List.mem_append.mp hc2 with hc3 | hc3
        · exact wsChar_ne_comma (hw c hc3)
        · rcases List.mem_singleton.mp hc3 with rfl; decide
    · exact headOk_append _ (headOk_cons lbrc _ (by decide) (by decide) (by decide))
  | @varr s _ ih =>
    obtain ⟨hc, hm, _⟩ := ih
    refine ⟨?_, ?_, ?_⟩
    · have : ColonsSafe ([lbrk] ++ (s ++ [rbrk])) :=
        colonsSafe_append (colonsSafe_single (by decide))
          (colonsSafe_append hc (colonsSafe_single (by decide)))
      simpa using this
    · have : CommasSafe ([lbrk] ++ (s ++ [rbrk])) :=
        commasSafe_append (commasSafe_single (by decide))
          (commasSafe_append hm (commasSafe_single (by decide)))
      simpa using this
    · exact headOk_append _ (headOk_cons lbrk _ (by decide) (by decide) (by decide))
  | @vobj s _ ih =>
    obtain ⟨hc, hm, _⟩ := ih
    refine ⟨?_, ?_, ?_⟩
    · have : ColonsSafe ([lbrc] ++ (s ++ [rbrc])) :=
        colonsSafe_append (colonsSafe_single (by decide))
          (colonsSafe_append hc (colonsSafe_single (by decide)))
      simpa using this
    · have : CommasSafe ([lbrc] ++ (s ++ [rbrc])) :=
        commasSafe_append (commasSafe_single (by decide))
          (commasSafe_append hm (commasSafe_single (by decide)))
      simpa using this
    · exact headOk_append _ (headOk_cons lbrc _ (by decide) (by decide) (by decide))
  | @iOne w1 v w2 hw1 _ hw2 ih =>
    exact itemBody_safe hw1 ih.1 ih.2.1 ih.2.2 hw2
  | @iCons w1 v w2 rest hw1 _ hw2 _ ih ihrest =>
    obtain ⟨hitem1, hitem2, hitem3⟩ :=
      itemBody_safe hw1 ih.1 ih.2.1 ih.2.2 hw2
    refine ⟨?_, ?_, ?_⟩
    · have : ColonsSafe ((w1 ++ v ++ w2) ++ (',' :: rest)) := by
        refine colonsSafe_append hitem1 ?_
        have : ColonsSafe ([','] ++ rest) :=
          colonsSafe_append (colonsSafe_single (by decide)) ihrest.1
        simpa using this
      simpa using this
    · exact commasSafe_sep hitem2 ihrest.2.1 ihrest.2.2
    · have : HeadOk ((w1 ++ v ++ w2) ++ (',' :: rest)) :=
        headOk_append _ hitem3
      simpa using this
  | @mOne w1 k w2 w3 v w4 hw1 hk hw2 hw3 _ hw4 ih =>
    exact memberBody_safe hw1 hk hw2 hw3 ih.1 ih.2.1 hw4
  | @mCons w1 k w2 w3 v w4 rest hw1 hk hw2 hw3 _ hw4 _ ih ihrest =>
    obtain ⟨hmem1, hmem2, hmem3⟩ :=
      memberBody_safe hw1 hk hw2 hw3 ih.1 ih.2.1 hw4
    refine ⟨?_, ?_, ?_⟩
    · have : ColonsSafe
          ((w1 ++ dquote :: k ++ dquote :: w2 ++ ':' :: w3 ++ v ++ w4) ++
            (',' :: rest)) := by
        refine colonsSafe_append hmem1 ?_
        have : ColonsSafe ([','] ++ rest) :=
          colonsSafe_append (colonsSafe_single (by decide)) ihrest.1
        simpa using this
      simpa using this
    · have : CommasSafe
          ((w1 ++ dquote :: k ++ dquote :: w2 ++ ':' :: w3 ++ v ++ w4) ++
            ',' :: rest) :=
        commasSafe_sep hmem2 ihrest.2.1 ihrest.2.2
      simpa using this
    · have : HeadOk
          ((w1 ++ dquote :: k ++ dquote :: w2 ++ ':' :: w3 ++ v ++ w4) ++
            (',' :: rest)) :=
        headOk_append _ hmem3
      simpa using this

/-- Dropping whitespace from a whitespace run followed by a
non-whitespace character lands exactly on that character. -/
theorem dropWhile_ws_decomp {w r : LC} {b : Char}
    (hw : ∀ c ∈ w, wsChar c = true) (hb : wsChar b = false) :
    (w ++ b :: r).dropWhile wsChar = b :: r := by
  induction w with
  | nil => simp [List.dropWhile_cons, hb]
  | cons c w2 ih =>
    simp only [List.cons_append, List.dropWhile_cons, hw c (by simp)]
    exact ih (fun d hd => hw d (by simp [hd]))

/-- Soundness of the bareword-key pattern matcher: a successful match
decomposes the text as whitespace, a non-empty word, whitespace, and a
colon. -/
theorem tryKey_sound {t w r : LC} (h : tryKey t = some (w, r)) :
    ∃ a ws2, t = a ++ (w ++ (ws2 ++ ':' :: r)) ∧
      (∀ c ∈ a, wsChar c = true) ∧ w ≠ [] ∧
      (∀ c ∈ w, wordChar c = true) ∧ (∀ c ∈ ws2, wsChar c = true) := by
  simp only [tryKey] at h
  split at h
  · cases h
  · rename_i hwne
    split at h
    · rename_i c r2 heq
      split at h
      · rename_i hcolon
        simp only [Option.some.injEq, Prod.mk.injEq] at h
        obtain ⟨hw, hr⟩ := h
        subst hcolon
        refine ⟨t.takeWhile wsChar,
          ((t.dropWhile wsChar).dropWhile wordChar).takeWhile wsChar, ?_, ?_, ?_, ?_, ?_⟩
        · conv_lhs => rw [← List.takeWhile_append_dropWhile wsChar t]
          rw [← hw]
          conv_lhs =>
            rw [← List.takeWhile_append_dropWhile wordChar (t.dropWhile wsChar)]
          rw [← hr, ← heq]
          rw [← List.takeWhile_append_dropWhile wsChar
            ((t.dropWhile wsChar).dropWhile wordChar)]
          simp
        · intro c hc; exact List.mem_takeWhile_imp hc
        · rw [← hw]; exact hwne
        · intro c hc; rw [← hw] at hc; exact List.mem_takeWhile_imp hc
        · intro c hc; exact List.mem_takeWhile_imp hc
      · cases h
    · cases h

/-- No character is both whitespace and a word character. -/
theorem wsChar_wordChar_false {c : Char} (h1 : wsChar c = true)
    (h2 : wordChar c = true) : False := by
  simp only [wsChar, Bool.or_eq_true, decide_eq_true_eq] at h1
  rcases h1 with ((((h3 | h3) | h3) | h3) | h3) | h3 <;> subst h3 <;> revert h2 <;> decide

/-- A key-safe prefix admits no bareword-key tail: it cannot be written
as anything followed by a trigger, whitespace, a non-empty word and
whitespace. -/
theorem safeU_not_badtail {u : LC} (hs : SafeU u) :
    ∀ (p : LC) (c : Char) (a b w : LC), u = p ++ c :: (a ++ (b ++ w)) →
      keyTrigger c = true → (∀ x ∈ a, wsChar x = true) →
      (∀ x ∈ b, wordChar x = true) → b ≠ [] →
      (∀ x ∈ w, wsChar x = true) → False := by
  intro p c a b w hu htr hwa hwb hbne hww
  have hclassed : ∀ x ∈ a ++ (b ++ w), keyClass x = true := by
    intro x hx
    rcases List.mem_append.mp hx with hx | hx
    · simp [keyClass, hwa x hx]
    · rcases List.mem_append.mp hx with hx | hx
      · simp [keyClass, hwb x hx]
      · simp [keyClass, hww x hx]
  rcases hs with ⟨x, d, y, hxy, hd, hy⟩ | ⟨x, d, y, hxy, hd1, hd2, hy⟩
  · rw [hxy] at hu
    rcases two_splits hu with ⟨_, rfl, _⟩ | ⟨m, _, hsplit2⟩ | ⟨m, _, hsplit3⟩
    · have hkc : keyClass d = true := by simp [keyClass, htr]
      rw [hkc] at hd
      cases hd
    · have hkc : keyClass d = true := hclassed d (by rw [hsplit2]; simp)
      rw [hkc] at hd
      cases hd
    · have hkc : keyTrigger c = false := hy c (by rw [hsplit3]; simp)
      rw [htr] at hkc
      cases hkc
  · rw [hxy] at hu
    rcases two_splits hu with ⟨_, rfl, hy2⟩ | ⟨m, _, hsplit2⟩ | ⟨m, _, hsplit3⟩
    · cases b with
      | nil => exact hbne rfl
      | cons b0 b1 =>
        have hbw : wordChar b0 = true := hwb b0 (by simp)
        have hbs : wsChar b0 = true := by
          refine hy b0 ?_
          rw [hy2]
          simp
        exact wsChar_wordChar_false hbs hbw
    · have hx2 : d ∈ a ++ (b ++ w) := by rw [hsplit2]; simp
      rcases List.mem_append.mp hx2 with hx3 | hx3
      · rw [hwa d hx3] at hd2; cases hd2
      · rcases List.mem_append.mp hx3 with hx4 | hx4
        · rw [hwb d hx4] at hd1; cases hd1
        · rw [hww d hx4] at hd2; cases hd2
    · cases b with
      | nil => exact hbne rfl
      | cons b0 b1 =>
        have hbw : wordChar b0 = true := hwb b0 (by simp)
        have hbs : wsChar b0 = true := by
          refine hy b0 ?_
          rw [hsplit3]
          simp
        exact wsChar_wordChar_false hbs hbw

/-- In a colon-safe text no position after a lookbehind trigger matches
the bareword-key pattern. -/
theorem colonsSafe_no_key {t : LC} (h : ColonsSafe t) :
    ∀ u c v, t = u ++ c :: v → keyTrigger c = true → tryKey v = none := by
  intro u c v hsplit htr
  cases htk : tryKey v with
  | none => rfl
  | some p =>
    exfalso
    obtain ⟨w, r⟩ := p
    obtain ⟨a, ws2, hv, hwa, hwne, hww, hws2⟩ := tryKey_sound htk
    have hteq : t = (u ++ c :: (a ++ (w ++ ws2))) ++ ':' :: r := by
      rw [hsplit, hv]
      simp
    have hsafe := h _ _ hteq
    exact safeU_not_badtail hsafe u c a w ws2 rfl htr hwa hww hwne hws2

/-- The bareword-key substitution is the identity on colon-safe texts. -/
theorem sub1Aux_id : ∀ (fuel : Nat) (t : LC) (allow : Bool),
    t.length < fuel →
    (∀ u c v, t = u ++ c :: v → keyTrigger c = true → tryKey v = none) →
    (allow = true → tryKey t = none) →
    sub1Aux fuel allow t = t := by
  intro fuel
  induction fuel with
  | zero =>
    intro t allow hlen
    omega
  | succ fuel ih =>
    intro t allow hlen hnm hallow
    cases t with
    | nil => cases allow <;> rfl
    | cons c rest =>
      have hlen2 : rest.length < fuel := by
        simp only [List.length_cons] at hlen
        omega
      have hnm2 : ∀ u c2 v, rest = u ++ c2 :: v → keyTrigger c2 = true →
          tryKey v = none := by
        intro u c2 v hs htr2
        exact hnm (c :: u) c2 v (by rw [hs]; simp) htr2
      have htrig : keyTrigger c = true → tryKey rest = none := by
        intro htr2
        exact hnm [] c rest (by simp) htr2
      cases allow with
      | false =>
        show sub1Aux (Nat.succ fuel) false (c :: rest) = c :: rest
        simp only [sub1Aux, if_neg (by simp : ¬(false = true))]
        rw [ih rest (keyTrigger c) hlen2 hnm2 htrig]
      | true =>
        have htk : tryKey (c :: rest) = none := hallow rfl
        show sub1Aux (Nat.succ fuel) true (c :: rest) = c :: rest
        simp only [sub1Aux, if_pos rfl, htk]
        rw [ih rest (keyTrigger c) hlen2 hnm2 htrig]
        simp

/-- The trailing-comma substitution is the identity on comma-safe
texts. -/
theorem sub2Fuel_id : ∀ (fuel : Nat) (t : LC), t.length < fuel →
    CommasSafe t → sub2Fuel fuel t = t := by
  intro fuel
  induction fuel with
  | zero =>
    intro t hlen
    omega
  | succ fuel ih =>
    intro t hlen hcs
    cases t with
    | nil => rfl
    | cons c rest =>
      have hlen2 : rest.length < fuel := by
        simp only [List.length_cons] at hlen
        omega
      have hcs2 : CommasSafe rest := by
        intro u v hs
        exact hcs (c :: u) v (by rw [hs]; simp)
      by_cases hc : c = ','
      · subst hc
        obtain ⟨w, b, r, hre, hw, hbws, hb1, hb2⟩ := hcs [] rest (by simp)
        have hdrop : rest.dropWhile wsChar = b :: r := by
          rw [hre]
          exact dropWhile_ws_decomp hw hbws
        show sub2Fuel (Nat.succ fuel) (',' :: rest) = ',' :: rest
        have hcond : (decide (b = rbrc) || decide (b = rbrk)) = false := by
          simp [hb1, hb2]
        simp only [sub2Fuel, if_pos rfl, hdrop, hcond, Bool.false_eq_true,
          if_false]
        rw [ih rest hlen2 hcs2]
        simp
      · show sub2Fuel (Nat.succ fuel) (c :: rest) = c :: rest
        simp only [sub2Fuel, if_neg hc]
        rw [ih rest hlen2 hcs2]

/-- C4, amended.  On strict JSON texts of the restricted grammar `JG`
(whose string literals contain no `{`, `,` or newline, the characters the
substitutions key on, and no backslash escapes), `js_to_json` is the
identity — in particular applying the repair twice equals applying it
once.  On strict JSON outside this grammar the repair can rewrite
string-literal content, so the unconditional claim fails. -/
theorem c4_repair_identity :
    ∀ t : LC, JG 0 t →
      js_to_json t = t ∧ js_to_json (js_to_json t) = js_to_json t := by
  intro t hjg
  obtain ⟨hcol, hcom, _⟩ := jg_safe 0 t hjg
  have h1 : sub1 t = t :=
    sub1Aux_id (t.length + 1) t false (by omega)
      (colonsSafe_no_key hcol) (by simp)
  have h2 : sub2 t = t := sub2Fuel_id (t.length + 1) t (by omega) hcom
  have hj : js_to_json t = t := by
    show sub2 (sub1 t) = t
    rw [h1, h2]
  exact ⟨hj, by rw [hj]; exact hj⟩

/-- C4, counterexample.  The text `{"a": "x,y :z"}` is strict JSON
(`json.loads` accepts it), yet `js_to_json` rewrites the content of its
string literal (to `{"a": "x,"y":z"}`): the repair substitutions are not
no-ops on already-strict JSON. -/
theorem c4_counterexample :
    jsonValid [lbrc, dquote, 'a', dquote, ':', ' ', dquote, 'x', ',', 'y',
      ' ', ':', 'z', dquote, rbrc] = true ∧
    js_to_json [lbrc, dquote, 'a', dquote, ':', ' ', dquote, 'x', ',', 'y',
        ' ', ':', 'z', dquote, rbrc] ≠
      [lbrc, dquote, 'a', dquote, ':', ' ', dquote, 'x', ',', 'y', ' ', ':',
        'z', dquote, rbrc] := by
  constructor
  · rfl
  · decide

/-- C4, witness: the strict JSON object text `{"a": 1}` is in the
restricted grammar, and the repair leaves it unchanged. -/
theorem c4_repair_identity_witness :
    js_to_json [lbrc, dquote, 'a', dquote, ':', ' ', '1', rbrc] =
      [lbrc, dquote, 'a', dquote, ':', ' ', '1', rbrc] ∧
    js_to_json (js_to_json [lbrc, dquote, 'a', dquote, ':', ' ', '1', rbrc]) =
      js_to_json [lbrc, dquote, 'a', dquote, ':', ' ', '1', rbrc] := by
  have hv : JG 0 (['1'] : LC) := JG.vnum (by decide) (by decide)
  have hm : JG 2 ([dquote, 'a', dquote, ':', ' ', '1'] : LC) :=
    @JG.mOne [] ['a'] [] [' '] ['1'] [] (by decide) (by decide) (by decide)
      (by decide) hv (by decide)
  have hobj : JG 0 ([lbrc, dquote, 'a', dquote, ':', ' ', '1', rbrc] : LC) :=
    @JG.vobj [dquote, 'a', dquote, ':', ' ', '1'] hm
  exact c4_repair_identity _ hobj
